import Mathlib

/-!
The dagcargo cron commands: export loop and pin job.

A shallow embedding of two pieces of `cmd/cron`:

* `oldkvexport.go`: the streaming group-by of `oldExportStatus.Action`
  (from `var priorKey string` to the final flush) and `cfUploadAndMarkUpdates`;
* `pindags.go`: `pinAndAnalyze` and the feeder/worker hand-off of `pinDags.Action`.

Everything outside the repository (the JSON encoder, the Cloudflare API, the
database, the IPFS API, `cid.Parse`) is an explicit parameter: an environment
record gives the outcome of every external call.
-/

set_option autoImplicit false

namespace DagCargo

/-! ## Data model of `oldkvexport.go` -/

/-- Go `time.Time`, reduced to what the export loop reads: the Unix second and
the nanosecond within it. -/
structure Time where
  sec : Int
  nsec : Nat
deriving DecidableEq, Repr

/-- Go `(time.Time).Unix`. -/
def Time.Unix (t : Time) : Int := t.sec

/-- Go struct `cfStatusDealEntry`: every field is a pointer, `none` is `nil`. -/
structure cfStatusDealEntry where
  Status : Option String
  LastChanged : Option Time
  LastChangedUnix : Option Int
  AggregateRootCid : Option String
  PieceCid : Option String
  Network : Option String
  Provider : Option String
  ChainDealID : Option Nat
  DatamodelSelector : Option String
  DealActivation : Option Time
  DealActivationUnix : Option Int
  DealExpiration : Option Time
  DealExpirationUnix : Option Int
deriving DecidableEq, Repr

/-- The anonymous `metadata` struct of `cfStatusUpdate` (seven `uint64` counters). -/
structure Metadata where
  Queued : Nat
  Proposing : Nat
  Accepted : Nat
  Failed : Nat
  Published : Nat
  Active : Nat
  Terminated : Nat
deriving DecidableEq, Repr

/-- Go struct `cfStatusUpdate`. The slice `value` is `none` when it is `nil`;
`valueEncoded` is the empty string until the record has been encoded. -/
structure cfStatusUpdate where
  cidv1 : String
  key : String
  metadata : Metadata
  value : Option (List cfStatusDealEntry)
  valueEncoded : String
deriving DecidableEq, Repr

/-- One row delivered by `rows.Scan`: the fifteen scanned columns. -/
structure Row where
  key : String
  cidv1 : String
  Queued : Nat
  Published : Nat
  Active : Nat
  Terminated : Nat
  Status : Option String
  LastChanged : Option Time
  AggregateRootCid : Option String
  PieceCid : Option String
  Provider : Option String
  ChainDealID : Option Nat
  DatamodelSelector : Option String
  dStart : Option Time
  dEnd : Option Time
deriving DecidableEq, Repr

/-- The `cloudflare.WorkersKVPair` built by `cfUploadAndMarkUpdates`. -/
structure WorkersKVPair where
  Key : String
  Metadata : Metadata
  Value : String
deriving DecidableEq, Repr

/-- The ways the export run stops early. `nilDeref` and `unexpectedResponse`
are Go panics (a nil pointer dereference, `log.Panicf`), the rest are returned
errors. -/
inductive ExportError where
  | scan (msg : String)
  | rowsErr (msg : String)
  | encode (msg : String)
  | nilValue (key : String)
  | configUnset
  | cfAPI (msg : String)
  | writeFailed (msg : String)
  | unexpectedResponse
  | dbExec (msg : String)
  | nilDeref
deriving DecidableEq, Repr

/-- Outcomes of the external calls of the export run. `writeBulk n req` is the
result of the `n`-th `WriteWorkersKVBulk` call (a transport error, or the
`Success` flag of the response); `markExported n cids` the error, if any, of
the `UPDATE cargo.dag_sources` that follows it. -/
structure ExportEnv where
  jsonEncode : Option (List cfStatusDealEntry) → Except String String
  dealKvID : String
  cfAPI : Option String
  writeBulk : Nat → List WorkersKVPair → Except String Bool
  markExported : Nat → List String → Option String

/-- What the run has done to the outside world so far: the map handed to each
`cfUploadAndMarkUpdates` call, the requests sent to `WriteWorkersKVBulk`, the
cid lists marked as exported, and the global `oldKvCountUpdated`. -/
structure ExportLog where
  uploads : List (List cfStatusUpdate)
  bulkWrites : List (List WorkersKVPair)
  marked : List (List String)
  countUpdated : Nat
deriving DecidableEq, Repr

/-- A computation of the export run: it either goes on with a value, or stops
with the log reached and the error. -/
abbrev Run (α : Type) := Except (ExportLog × ExportError) α

/-- The local variables of the scan loop. The Go map `updates` is a list of
records in insertion order; a record is only ever inserted under a key that is
absent, so keys are distinct and `len(updates)` is the list length. -/
structure LoopState where
  priorKey : String
  updates : List cfStatusUpdate
  updatesApproxBytes : Nat
  log : ExportLog
deriving DecidableEq, Repr

/-! ## `cfUploadAndMarkUpdates` -/

/-- Body of `for _, u := range updates`: encode a record that is not encoded
yet, and emit its key/metadata/value triple. -/
def encodeUpdate (env : ExportEnv) (u : cfStatusUpdate) : Except ExportError WorkersKVPair :=
  if u.valueEncoded = "" then
    match u.value with
    | none => .error (.nilValue u.key)
    | some v =>
      match env.jsonEncode (some v) with
      | .error e => .error (.encode e)
      | .ok s => .ok { Key := u.key, Metadata := u.metadata, Value := s }
  else
    .ok { Key := u.key, Metadata := u.metadata, Value := u.valueEncoded }

/-- The `range updates` loop building `toUpd`; it returns at the first record
that cannot be encoded. -/
def buildRequest (env : ExportEnv) : List cfStatusUpdate → Except ExportError (List WorkersKVPair)
  | [] => .ok []
  | u :: rest =>
    match encodeUpdate env u with
    | .error e => .error e
    | .ok p =>
      match buildRequest env rest with
      | .error e => .error e
      | .ok ps => .ok (p :: ps)

/-- Go `cfUploadAndMarkUpdates`. -/
def cfUploadAndMarkUpdates (env : ExportEnv) (log : ExportLog)
    (updates : List cfStatusUpdate) : Run ExportLog :=
  let log1 : ExportLog := { log with uploads := log.uploads ++ [updates] }
  match buildRequest env updates with
  | .error e => .error (log1, e)
  | .ok toUpd =>
    let updatedCids := updates.map (fun u => u.cidv1)
    if env.dealKvID = "" then .error (log1, .configUnset)
    else
      match env.cfAPI with
      | some e => .error (log1, .cfAPI e)
      | none =>
        let n := log.bulkWrites.length
        let log2 : ExportLog := { log1 with bulkWrites := log1.bulkWrites ++ [toUpd] }
        match env.writeBulk n toUpd with
        | .error e => .error (log2, .writeFailed e)
        | .ok false => .error (log2, .unexpectedResponse)
        | .ok true =>
          match env.markExported n updatedCids with
          | some e => .error (log2, .dbExec e)
          | none =>
            .ok { log2 with
                  marked := log2.marked ++ [updatedCids]
                  countUpdated := log2.countUpdated + updatedCids.length }

/-! ## The scan loop of `oldExportStatus.Action` -/

/-- Go `updates[k]` read with the comma-ok form: the record stored under `k`. -/
def lookup (updates : List cfStatusUpdate) (k : String) : Option cfStatusUpdate :=
  updates.find? (fun u => u.key == k)

/-- The record `curCidReceiver` as it is stored in the map: the scanned key,
cid and counters, and `value = make([]*cfStatusDealEntry, 0)`. -/
def receiver (r : Row) : cfStatusUpdate :=
  { cidv1 := r.cidv1
    key := r.key
    metadata :=
      { Queued := r.Queued, Proposing := 0, Accepted := 0, Failed := 0,
        Published := r.Published, Active := r.Active, Terminated := r.Terminated }
    value := some []
    valueEncoded := "" }

/-- Lines 160-169: "deal with prior state if any". The record under `priorKey`
is encoded and its encoded length added to the byte accumulator. -/
def encodePrior (env : ExportEnv) (st : LoopState) : Run LoopState :=
  if st.priorKey ≠ "" then
    match lookup st.updates st.priorKey with
    | none => .error (st.log, .nilDeref)
    | some priorRecord =>
      match env.jsonEncode priorRecord.value with
      | .error e => .error (st.log, .encode e)
      | .ok s =>
        .ok { st with
              updates := st.updates.map
                (fun u => if u.key = st.priorKey then { u with valueEncoded := s } else u)
              updatesApproxBytes := st.updatesApproxBytes + s.utf8ByteSize }
  else .ok st

/-- Lines 171-185: set `priorKey`, flush if the batch grew too big, then store
the new record. -/
def flushAndAdd (env : ExportEnv) (st : LoopState) (r : Row) : Run LoopState :=
  if st.updates.length > 9999 ∨ st.updatesApproxBytes > 85 <<< 20 then
    match cfUploadAndMarkUpdates env st.log st.updates with
    | .error e => .error e
    | .ok log =>
      .ok { priorKey := r.key, updates := [receiver r], updatesApproxBytes := 0, log := log }
  else
    .ok { st with priorKey := r.key, updates := st.updates ++ [receiver r] }

/-- The `if _, exists := updates[curCidReceiver.key]; !exists` block. -/
def newGroup (env : ExportEnv) (st : LoopState) (r : Row) : Run LoopState :=
  match encodePrior env st with
  | .error e => .error e
  | .ok st1 => flushAndAdd env st1 r

/-- The test `curCidReceiver.metadata.Queued == 0 && curDeal.Status == nil`. -/
def skipped (r : Row) : Prop := r.Queued = 0 ∧ r.Status = none

instance (r : Row) : Decidable (skipped r) := by
  unfold skipped; exact inferInstance

/-- Lines 194-214: `curDeal` as appended to the group, for a row whose
`LastChanged` is `lc`. -/
def dealEntry (r : Row) (lc : Time) : cfStatusDealEntry :=
  let base : cfStatusDealEntry :=
    { Status := r.Status
      LastChanged := some lc
      LastChangedUnix := some lc.Unix
      AggregateRootCid := r.AggregateRootCid
      PieceCid := r.PieceCid
      Network := none
      Provider := r.Provider
      ChainDealID := r.ChainDealID
      DatamodelSelector := r.DatamodelSelector
      DealActivation := none
      DealActivationUnix := none
      DealExpiration := none
      DealExpirationUnix := none }
  match r.Status with
  | none => { base with Status := some "queued" }
  | some _ =>
    let a : cfStatusDealEntry := { base with Network := some "mainnet" }
    let b : cfStatusDealEntry :=
      match r.dStart with
      | some t => { a with DealActivation := some t, DealActivationUnix := some t.Unix }
      | none => a
    match r.dEnd with
    | some t => { b with DealExpiration := some t, DealExpirationUnix := some t.Unix }
    | none => b

/-- Line 216: `updates[priorKey].value = append(updates[priorKey].value, curDeal)`. -/
def appendDeal (updates : List cfStatusUpdate) (k : String) (d : cfStatusDealEntry) :
    List cfStatusUpdate :=
  updates.map (fun u => if u.key = k then { u with value := some (u.value.getD [] ++ [d]) } else u)

/-- Lines 188-216: skip the row, or annotate its deal and append it to the
record under `priorKey`. -/
def addDeal (st : LoopState) (r : Row) : Run LoopState :=
  if skipped r then .ok st
  else
    match r.LastChanged with
    | none => .error (st.log, .nilDeref)
    | some lc =>
      match lookup st.updates st.priorKey with
      | none => .error (st.log, .nilDeref)
      | some _ => .ok { st with updates := appendDeal st.updates st.priorKey (dealEntry r lc) }

/-- One iteration of `for rows.Next()` after a successful `rows.Scan`. -/
def processRow (env : ExportEnv) (st : LoopState) (r : Row) : Run LoopState :=
  match lookup st.updates r.key with
  | some _ => addDeal st r
  | none =>
    match newGroup env st r with
    | .error e => .error e
    | .ok st1 => addDeal st1 r

/-- The loop `for rows.Next()`: each cursor item is the outcome of `rows.Scan`. -/
def scanLoop (env : ExportEnv) : LoopState → List (Except String Row) → Run LoopState
  | st, [] => .ok st
  | st, .error e :: _ => .error (st.log, .scan e)
  | st, .ok r :: rest =>
    match processRow env st r with
    | .error e => .error e
    | .ok st1 => scanLoop env st1 rest

/-- The empty log of a fresh run. -/
def ExportLog.empty : ExportLog := { uploads := [], bulkWrites := [], marked := [], countUpdated := 0 }

/-- The loop state at line 129. -/
def LoopState.init : LoopState :=
  { priorKey := "", updates := [], updatesApproxBytes := 0, log := ExportLog.empty }

/-- Lines 127-222 of `oldExportStatus.Action`: scan, check `rows.Err()`, final
flush. -/
def oldExportStatus (env : ExportEnv) (cursor : List (Except String Row))
    (rowsErr : Option String) : Run ExportLog :=
  match scanLoop env LoopState.init cursor with
  | .error e => .error e
  | .ok st =>
    match rowsErr with
    | some e => .error (st.log, .rowsErr e)
    | none => cfUploadAndMarkUpdates env st.log st.updates

/-- The log a run ends with, whether it succeeded or not. -/
def finalLog : Run ExportLog → ExportLog
  | .ok log => log
  | .error (log, _) => log

/-- The log reached by a loop step, whether it succeeded or not. -/
def stepLog : Run LoopState → ExportLog
  | .ok st => st.log
  | .error (log, _) => log


/-! ## Bounds on the size of a bulk write -/

/-- Every map handed to `cfUploadAndMarkUpdates` and every request sent has at
most 10,000 entries. -/
def LogBounded (log : ExportLog) : Prop :=
  (∀ m ∈ log.uploads, m.length ≤ 10000) ∧ (∀ w ∈ log.bulkWrites, w.length ≤ 10000)

/-- A step outcome keeps the bound: the log is bounded and, on success, so is
the pending map. -/
def StepBounded : Run LoopState → Prop
  | .ok st => st.updates.length ≤ 10000 ∧ LogBounded st.log
  | .error (log, _) => LogBounded log


/-! ## Specification-side notions for the export run -/

/-- The keys of a key list in order of first appearance. -/
def distinctKeys (keys : List String) : List String :=
  keys.foldl (fun acc k => if k ∈ acc then acc else acc ++ [k]) []

/-- The deal entry a row contributes to its group: none for a skipped row. -/
def rowDeal (r : Row) : Option cfStatusDealEntry :=
  if skipped r then none else r.LastChanged.map (dealEntry r)

/-- The deal entries built from the non-skipped rows carrying key `k`, in
input order. -/
def dealsOf (rows : List Row) (k : String) : List cfStatusDealEntry :=
  (rows.filter (fun r => r.key = k)).filterMap rowDeal

/-- An environment in which nothing external fails: the encoder accepts every
list, the KV namespace is configured, the API client is built, every bulk
write reports success and every mark of exported rows succeeds. -/
structure GoodEnv (env : ExportEnv) : Prop where
  encodes : ∀ v, ∃ s, env.jsonEncode v = .ok s
  configured : env.dealKvID ≠ ""
  api : env.cfAPI = none
  writes : ∀ n req, env.writeBulk n req = .ok true
  marks : ∀ n cids, env.markExported n cids = none

/-- Every row that is not skipped carries a last-changed timestamp (the
column is `COALESCE( de.entry_last_updated, ru.entry_last_updated )`). -/
def RowsTimed (rows : List Row) : Prop :=
  ∀ r ∈ rows, ¬ skipped r → r.LastChanged ≠ none

/-- Encoded size in bytes of the finished group of key `k`. -/
def groupBytes (env : ExportEnv) (rows : List Row) (k : String) : Nat :=
  match env.jsonEncode (some (dealsOf rows k)) with
  | .ok s => s.utf8ByteSize
  | .error _ => 0

/-- The byte accumulator never passes the threshold. The accumulator counts
finished groups only, so never the group of the last distinct key, and it
restarts at every 10,000th distinct key: each block of 10,000 consecutive
distinct keys (counted from the first, the last key left out) encodes to at
most `85 <<< 20` bytes. -/
def BytesBelowThreshold (env : ExportEnv) (rows : List Row) : Prop :=
  ∀ j : Nat,
    (((((distinctKeys (rows.map (fun r => r.key))).dropLast).drop (10000 * j)).take 10000).map
      (groupBytes env rows)).sum ≤ 85 <<< 20

/-- A stand-in for `encoding/json` used to instantiate the theorems at
concrete inputs: it renders the status of each entry only. On a nil slice and
on the empty slice it gives what Go gives, `null` and `[]` followed by a
newline. -/
def sampleEncode : Option (List cfStatusDealEntry) → Except String String
  | none => .ok "null\n"
  | some l =>
    .ok ("[" ++ ",".intercalate (l.map fun d => "\x7b\"status\":\"" ++ d.Status.getD "" ++ "\"\x7d")
      ++ "]\n")

/-- An environment in which every external call succeeds. -/
def sampleEnv : ExportEnv :=
  { jsonEncode := sampleEncode, dealKvID := "deals", cfAPI := none,
    writeBulk := fun _ _ => .ok true, markExported := fun _ _ => none }

/-- A row with the given key, cid, queued counter and deal status, last changed
at Unix second 100, and no other column set. -/
def sampleRow (k c : String) (q : Nat) (s : Option String) : Row :=
  { key := k, cidv1 := c, Queued := q, Published := 0, Active := 0, Terminated := 0, Status := s,
    LastChanged := some ⟨100, 0⟩, AggregateRootCid := none, PieceCid := none, Provider := none,
    ChainDealID := none, DatamodelSelector := none, dStart := none, dEnd := none }

/-- All key/value pairs sent to the KV store so far, over all bulk writes. -/
def ExportLog.written (log : ExportLog) : List WorkersKVPair := log.bulkWrites.flatten

/-- How a written pair relates to the record it was built from. -/
def PairOf (env : ExportEnv) (u : cfStatusUpdate) (p : WorkersKVPair) : Prop :=
  p.Key = u.key ∧ p.Metadata = u.metadata ∧
    (if u.valueEncoded = "" then env.jsonEncode u.value = .ok p.Value
     else p.Value = u.valueEncoded)

/-- A bulk write `w` and the cid list `m` marked as exported after it: every
pair of `w` carries the counters of the first row of its key, and the cid of
that row is in `m`. -/
def MarkedWith (keyRows : List Row) (w : List WorkersKVPair) (m : List String) : Prop :=
  ∀ p ∈ w, ∃ r, keyRows.find? (fun x => x.key == p.Key) = some r ∧
    p.Metadata = (receiver r).metadata ∧ r.cidv1 ∈ m

/-- The loop invariant of the scan over key-sorted rows `rows`. `keyRows` are
the rows whose key has been registered (lines 157-186 done), `dealRows` the
rows whose deal has been appended (line 216 done): between the two halves of
an iteration `keyRows` is one row ahead of `dealRows`. -/
structure Inv (env : ExportEnv) (rows keyRows dealRows : List Row) (st : LoopState) : Prop where
  keys : st.log.written.map (fun p => p.Key) ++ st.updates.map (fun u => u.key)
      = distinctKeys (keyRows.map (fun r => r.key))
  flushed : ∀ p ∈ st.log.written, env.jsonEncode (some (dealsOf dealRows p.Key)) = .ok p.Value
  pending : ∀ u ∈ st.updates, u.value = some (dealsOf dealRows u.key) ∧
      (u.valueEncoded = "" ∨ env.jsonEncode u.value = .ok u.valueEncoded)
  current : ∀ u ∈ st.updates, u.key = st.priorKey → u.valueEncoded = ""
  le : ∀ k ∈ keyRows.map (fun r => r.key), k ≤ st.priorKey
  last : (keyRows = [] ∧ st.priorKey = "" ∧ st.updates = [] ∧ st.updatesApproxBytes = 0) ∨
      (∃ init, st.updates.map (fun u => u.key) = init ++ [st.priorKey] ∧
        st.updatesApproxBytes ≤ (init.map (groupBytes env rows)).sum)
  bound : st.updates.length ≤ 10000
  full : BytesBelowThreshold env rows → ∀ w ∈ st.log.bulkWrites, w.length = 10000
  first : ∀ u ∈ st.updates, ∃ r, keyRows.find? (fun x => x.key == u.key) = some r ∧
      u.cidv1 = r.cidv1 ∧ u.metadata = (receiver r).metadata
  flushedFirst : ∀ p ∈ st.log.written, ∃ r, keyRows.find? (fun x => x.key == p.Key) = some r ∧
      p.Metadata = (receiver r).metadata ∧ r.cidv1 ∈ st.log.marked.flatten
  aligned : List.Forall₂ (MarkedWith keyRows) st.log.bulkWrites st.log.marked

/-- Three rows in key order: two for key `a` (one queued without a deal, one
with an active deal) and one skipped row for key `b`. -/
def sampleRows : List Row :=
  [sampleRow "a" "c1" 1 none, sampleRow "a" "c2" 0 (some "active"), sampleRow "b" "c3" 0 none]

/-- A loop state at which key `a` is the current group, one record is pending,
and the byte accumulator stands 3 bytes under 85 MiB. -/
def thresholdState : LoopState :=
  { priorKey := "a"
    updates := [receiver (sampleRow "a" "c1" 0 none)]
    updatesApproxBytes := 89128957
    log := ExportLog.empty }

/-- A row starting the group of key `b`. -/
def thresholdRow : Row := sampleRow "b" "c2" 0 none

/-- The only row of key `k`: no deal, and a queued counter of zero. -/
def unqueuedRow : Row := sampleRow "k" "c" 0 none

/-- The state `thresholdState` after lines 160-169: the finished group `a` is
encoded as `[]` plus a newline, and its 3 bytes bring the accumulator to
exactly 85 MiB. -/
def thresholdEncoded : LoopState :=
  { thresholdState with
    updates := [{ receiver (sampleRow "a" "c1" 0 none) with valueEncoded := "[]\n" }]
    updatesApproxBytes := 89128960 }

/-- Key-sorted rows in which key `b` has two rows, both skipped (queued 0, no
deal status): the first with published, active and terminated counters 2, 3
and 4 and cid `c2`, the second with 5, 6 and 7 and cid `c3`. -/
def skippedRows : List Row :=
  [sampleRow "a" "c1" 1 none,
   { sampleRow "b" "c2" 0 none with Published := 2, Active := 3, Terminated := 4 },
   { sampleRow "b" "c3" 0 none with Published := 5, Active := 6, Terminated := 7 }]

/-! ## Data model of `pindags.go` -/

/-- The two errors a Go context reports from `Err()`. -/
inductive ContextError where
  | canceled
  | deadlineExceeded
deriving DecidableEq, Repr

/-- A Go `error` value, as far as `pinAndAnalyze` tells errors apart: a
`*url.Error` with the answer of its `Timeout()` method, an error of another
dynamic type that implements `net.Error` (what a read of the response body
returns) with the answer of its `Timeout()` method, a context error, or any
other error. -/
inductive GoError where
  | urlError (op : String) (url : String) (inner : String) (timeout : Bool)
  | netError (msg : String) (timeout : Bool)
  | context (e : ContextError)
  | other (msg : String)
deriving DecidableEq, Repr

/-- The test `ue, castOk := err.(*url.Error); castOk && ue.Timeout()`. -/
def GoError.isUrlTimeout : GoError → Bool
  | .urlError _ _ _ t => t
  | .netError _ _ => false
  | .context _ => false
  | .other _ => false

/-- The error is a timeout: it has a `Timeout()` method that answers true.
`context.DeadlineExceeded` has one, `context.Canceled` has none. -/
def GoError.isTimeout : GoError → Bool
  | .urlError _ _ _ t => t
  | .netError _ t => t
  | .context .deadlineExceeded => true
  | .context .canceled => false
  | .other _ => false

/-- Go `cid.Cid`, a struct around one string. -/
structure Cid where
  str : String
deriving DecidableEq, Repr

/-- Go struct `dagStat`. -/
structure dagStat where
  Size : Nat
  NumBlocks : Nat
deriving DecidableEq, Repr

/-- Go struct `refEntry`. -/
structure refEntry where
  Ref : String
  Err : String
deriving DecidableEq, Repr

/-- Go struct `stats`: the values of the four shared `uint64` counters. -/
structure stats where
  pinned : Nat
  failed : Nat
  refs : Nat
  size : Nat
deriving DecidableEq, Repr

/-- Go `atomic.AddUint64`: addition modulo `2^64`. -/
def addUint64 (a delta : Nat) : Nat := (a + delta) % 2 ^ 64

/-- The two tables the job writes: `cargo.dags` as (cid_v1, size_actual) rows
and `cargo.refs` as (cid_v1, ref_v1) rows. -/
structure Store where
  dags : List (String × Option Nat)
  refs : List (String × String)
deriving DecidableEq, Repr

/-- Statement `UPDATE cargo.dags SET size_actual = $1 WHERE cid_v1 = $2`. -/
def Store.setSize (s : Store) (size : Nat) (cid : String) : Store :=
  { s with dags := s.dags.map (fun row => if row.1 = cid then (row.1, some size) else row) }

/-- Call `CopyFrom` into `cargo.refs`: the rows are appended. -/
def Store.copyRefs (s : Store) (rows : List (String × String)) : Store :=
  { s with refs := s.refs ++ rows }

/-- How the `refs` request can go wrong: `Send` returns an error and a nil
response, or the node answers with an error status and `Send` returns a
response whose `Output` is nil together with a nil error. -/
inductive SendFailure where
  | transport (e : GoError)
  | errorStatus
deriving DecidableEq, Repr

/-- A `Commit` that returned an error: the error, and whether the server had
committed the transaction all the same. -/
structure CommitFailure where
  err : GoError
  applied : Bool
deriving DecidableEq, Repr

/-- Outcomes of the external calls of one job, and the pieces of the
repository and of go-cid that are not in the analysed sources. A failed
`Begin`, `CopyFrom` or `Exec` writes nothing; a failed `Commit` says whether
the server committed; `ctxErr` is what `cctx.Err()` returns when the deferred
function runs. -/
structure PinEnv where
  parse : String → Except GoError Cid
  cidv1 : Cid → Cid
  cidString : Cid → String
  pinAdd : Option GoError
  statResult : Except GoError dagStat
  refsSend : Option SendFailure
  refsStream : List refEntry
  refsEnd : Option GoError
  begin : Option GoError
  copyFrom : Option GoError
  exec : Option GoError
  commit : Option CommitFailure
  ctxErr : Option ContextError

/-- The state of `pinAndAnalyze` when its body returns (or panics): the named
result `err`, the transaction `tx` if one is open (its working copy of the
store), the counters and the store. -/
structure BodyResult where
  err : Option GoError
  panicked : Bool
  tx : Option Store
  total : stats
  store : Store
deriving DecidableEq, Repr

/-- What a job leaves behind: the error returned to the caller (the value of
`err` after the deferred function, when the job panicked instead of
returning), whether it panicked, the counters, the store, which transaction
calls were made, and whether the writes of the transaction reached the
store. -/
structure JobResult where
  err : Option GoError
  panicked : Bool
  total : stats
  store : Store
  txOpened : Bool
  rolledBack : Bool
  commitCalled : Bool
  committed : Bool
deriving DecidableEq, Repr

/-! ## `pinAndAnalyze` -/

/-- The decode loop of lines 243-267 over the streamed records; `fin` is how
the stream ends, `none` for `io.EOF` and `some e` for a decode error. -/
def collectRefs (env : PinEnv) (rootCid : Cid) :
    List refEntry → Option GoError → List (String × String) →
      Except GoError (List (String × String))
  | [], none, refs => .ok refs
  | [], some e, _ => .error e
  | ref :: rest, fin, refs =>
    if ref.Err ≠ "" then .error (.other ref.Err)
    else
      match env.parse ref.Ref with
      | .error e => .error e
      | .ok refCid =>
        collectRefs env rootCid rest fin
          (refs ++ [(env.cidString (env.cidv1 rootCid), env.cidString (env.cidv1 refCid))])

/-- Lines 287-301: the size update, inside the transaction when there is one
and directly on the pool otherwise, then the `pinned` and `size` counters. -/
def updateSize (env : PinEnv) (rootCid : Cid) (ds : dagStat) (tx : Option Store)
    (total : stats) (store : Store) : BodyResult :=
  match env.exec with
  | some e => { err := some e, panicked := false, tx := tx, total := total, store := store }
  | none =>
    let total1 : stats :=
      { total with pinned := addUint64 total.pinned 1, size := addUint64 total.size ds.Size }
    match tx with
    | some t =>
      { err := none, panicked := false
        tx := some (t.setSize ds.Size (env.cidString (env.cidv1 rootCid)))
        total := total1, store := store }
    | none =>
      { err := none, panicked := false, tx := none, total := total1
        store := store.setSize ds.Size (env.cidString (env.cidv1 rootCid)) }

/-- Lines 216-301, the body of `pinAndAnalyze` up to its `return`. The error
of `Send` is assigned to `err` and never tested: a failed `Send` leaves `resp`
nil and reading `resp.Output` panics; a response with an error status has a
nil `Output`, and the first `Decode` panics with `err` still nil. -/
def pinBody (env : PinEnv) (rootCid : Cid) (total : stats) (store : Store) : BodyResult :=
  match env.pinAdd with
  | some _ =>
    { err := none, panicked := false, tx := none
      total := { total with failed := addUint64 total.failed 1 }, store := store }
  | none =>
    match env.statResult with
    | .error e => { err := some e, panicked := false, tx := none, total := total, store := store }
    | .ok ds =>
      if ds.NumBlocks > 1 then
        match env.refsSend with
        | some (.transport e) =>
          { err := some e, panicked := true, tx := none, total := total, store := store }
        | some .errorStatus =>
          { err := none, panicked := true, tx := none, total := total, store := store }
        | none =>
          match collectRefs env rootCid env.refsStream env.refsEnd [] with
          | .error e =>
            { err := some e, panicked := false, tx := none, total := total, store := store }
          | .ok refs =>
            match env.begin with
            | some e =>
              { err := some e, panicked := false, tx := none, total := total, store := store }
            | none =>
              match env.copyFrom with
              | some e =>
                { err := some e, panicked := false, tx := some store, total := total
                  store := store }
              | none =>
                updateSize env rootCid ds (some (store.copyRefs refs))
                  { total with refs := addUint64 total.refs refs.length } store
      else updateSize env rootCid ds none total store

/-- The deferred function of lines 193-214, run on the state the body left. -/
def pinDeferred (env : PinEnv) (b : BodyResult) : JobResult :=
  let err : Option GoError :=
    match b.err with
    | none => env.ctxErr.map GoError.context
    | some e => some e
  match err with
  | some e =>
    { err := if e.isUrlTimeout then none else some e
      panicked := b.panicked
      total := { b.total with failed := addUint64 b.total.failed 1 }
      store := b.store
      txOpened := b.tx.isSome
      rolledBack := b.tx.isSome
      commitCalled := false
      committed := false }
  | none =>
    match b.tx with
    | none =>
      { err := none, panicked := b.panicked, total := b.total, store := b.store
        txOpened := false, rolledBack := false, commitCalled := false, committed := false }
    | some t =>
      match env.commit with
      | some f =>
        { err := some f.err, panicked := b.panicked, total := b.total
          store := if f.applied then t else b.store
          txOpened := true, rolledBack := false, commitCalled := true, committed := f.applied }
      | none =>
        { err := none, panicked := b.panicked, total := b.total, store := t
          txOpened := true, rolledBack := false, commitCalled := true, committed := true }

/-- Go `pinAndAnalyze`: the body, then the deferred function. -/
def pinAndAnalyze (env : PinEnv) (rootCid : Cid) (total : stats) (store : Store) : JobResult :=
  pinDeferred env (pinBody env rootCid total store)

/-! ## Specification-side notions for the pin job -/

/-- The references were streamed to the end and collected: the request was
sent and the decode loop returned the edge list `refs`. -/
def RefsCollected (env : PinEnv) (rootCid : Cid) (refs : List (String × String)) : Prop :=
  env.refsSend = none ∧ collectRefs env rootCid env.refsStream env.refsEnd [] = .ok refs

/-- The edge written for a reference `c` of the DAG rooted at `rootCid`. -/
def refEdge (env : PinEnv) (rootCid c : Cid) : String × String :=
  (env.cidString (env.cidv1 rootCid), env.cidString (env.cidv1 c))

/-- A job environment in which every call succeeds: a DAG of 1000 bytes in 3
blocks, with two streamed references. Identifiers are parsed as they are,
the empty string is not an identifier. -/
def samplePinEnv : PinEnv :=
  { parse := fun s => if s = "" then .error (.other "invalid cid") else .ok ⟨s⟩
    cidv1 := fun c => c
    cidString := fun c => c.str
    pinAdd := none
    statResult := .ok { Size := 1000, NumBlocks := 3 }
    refsSend := none
    refsStream := [{ Ref := "b1", Err := "" }, { Ref := "b2", Err := "" }]
    refsEnd := none
    begin := none
    copyFrom := none
    exec := none
    commit := none
    ctxErr := none }

/-- A store holding the DAG `root`, not yet measured, and no reference. -/
def sampleStore : Store := { dags := [("root", none)], refs := [] }

/-- Counters at zero. -/
def zeroStats : stats := { pinned := 0, failed := 0, refs := 0, size := 0 }

/-- The timeout of the stat request, as a `*url.Error` whose `Timeout()` holds. -/
def statTimeout : GoError :=
  .urlError "Post" "http://localhost:5001/api/v0/dag/stat" "context deadline exceeded" true

/-- The timeout of the `refs` request itself, as a `*url.Error` whose
`Timeout()` holds. -/
def refsTimeout : GoError :=
  .urlError "Post" "http://localhost:5001/api/v0/refs" "context deadline exceeded" true

/-- The timeout of a read of the `refs` response body: an error with a
`Timeout()` method that holds, whose dynamic type is not `*url.Error`. -/
def bodyReadTimeout : GoError :=
  .netError "net/http: request canceled (Client.Timeout exceeded while reading body)" true

/-- The stat request times out; everything else succeeds. -/
def statTimeoutEnv : PinEnv := { samplePinEnv with statResult := .error statTimeout }

/-- The reference stream delivers one record and then stalls past the client
timeout: the second `Decode` returns `bodyReadTimeout`. -/
def streamTimeoutEnv : PinEnv :=
  { samplePinEnv with
    refsStream := [{ Ref := "b1", Err := "" }], refsEnd := some bodyReadTimeout }

/-- The `refs` request itself times out: `Send` returns `refsTimeout` and a
nil response. -/
def sendTimeoutEnv : PinEnv := { samplePinEnv with refsSend := some (.transport refsTimeout) }

/-! ## The feeder and the workers of `pinDags.Action`

Lines 107-173 as a transition system. The goroutines are the feeder, the
workers and the main goroutine; a step is one channel operation (with the code
that follows it up to the next channel operation). Channels are the buffered
FIFO queues of Go: a send needs room, a receive from an empty open channel
waits, a receive from an empty closed channel yields the zero value, a send on
a closed channel panics. `select` takes any ready case. -/

/-- Where the feeder goroutine stands: in its `range` loop, between
`e := <-errCh` and `errCh <- e` holding `e`, returned, or panicked. -/
inductive FeederState where
  | running
  | holding (e : GoError)
  | done
  | panicked
deriving DecidableEq, Repr

/-- Where a worker goroutine stands: at `<-toPinCh`, inside `pinAndAnalyze`
for a DAG, or returned. -/
inductive WorkerState where
  | idle
  | working (c : Cid)
  | exited
deriving DecidableEq, Repr

/-- Where the main goroutine stands: at `wg.Wait()`, after `close(errCh)`, or
returned with the value of `<-errCh`. -/
inductive MainState where
  | waiting
  | closed
  | returned (res : Option GoError)
deriving DecidableEq, Repr

/-- The shared state of a pin-dags run. `reported` is not in the code: it
records, in order, every error sent into `errCh` by a worker or by the feeder
on cancellation. -/
structure PoolState where
  jobs : List Cid
  feeder : FeederState
  toPinCh : List Cid
  toPinClosed : Bool
  workers : List WorkerState
  errCh : List GoError
  errClosed : Bool
  main : MainState
  ctxDone : Bool
  reported : List GoError
deriving DecidableEq, Repr

/-- The steps of the goroutines, and the cancellation of the context. -/
inductive PoolAction where
  | feederSend
  | feederCancelled
  | feederTick
  | feederTakeErr
  | feederRequeue
  | feederFinish
  | workerTake (i : Nat)
  | workerReturn (i : Nat)
  | workerExit (i : Nat)
  | cancel
  | mainClose
  | mainReceive
deriving DecidableEq, Repr

/-- The state after `make(chan ...)` and the `go` statements: `pinsToDo` in
the order the feeder will range over it, and `maxWorkers` workers. -/
def PoolState.init (pinsToDo : List Cid) (maxWorkers : Nat) : PoolState :=
  { jobs := pinsToDo, feeder := .running, toPinCh := [], toPinClosed := false
    workers := List.replicate maxWorkers .idle, errCh := [], errClosed := false
    main := .waiting, ctxDone := false, reported := [] }

/-- One step of the run, `none` when the step cannot be taken in the state.
`maxWorkers` fixes the channel capacities, `outcome` is what `pinAndAnalyze`
returns for each DAG, `showProgress` arms the progress ticker. -/
def poolStep (maxWorkers : Nat) (outcome : Cid → Option GoError) (showProgress : Bool)
    (s : PoolState) : PoolAction → Option PoolState
  | .feederSend =>
    match s.feeder, s.jobs with
    | .running, c :: rest =>
      if s.toPinCh.length < 2 * maxWorkers then
        some { s with jobs := rest, toPinCh := s.toPinCh ++ [c] }
      else none
    | _, _ => none
  | .feederCancelled =>
    match s.feeder, s.jobs with
    | .running, _ :: _ =>
      if s.ctxDone then
        if s.errClosed then some { s with feeder := .panicked, toPinClosed := true }
        else if s.errCh.length < 1 + maxWorkers then
          some { s with
                 errCh := s.errCh ++ [.context .canceled]
                 reported := s.reported ++ [.context .canceled]
                 feeder := .done, toPinClosed := true }
        else none
      else none
    | _, _ => none
  | .feederTick =>
    match s.feeder, s.jobs with
    | .running, _ :: rest => if showProgress then some { s with jobs := rest } else none
    | _, _ => none
  | .feederTakeErr =>
    match s.feeder, s.jobs with
    | .running, _ :: _ =>
      match s.errCh with
      | e :: rest => some { s with errCh := rest, feeder := .holding e }
      | [] => if s.errClosed then some { s with feeder := .done, toPinClosed := true } else none
    | _, _ => none
  | .feederRequeue =>
    match s.feeder with
    | .holding e =>
      if s.errClosed then some { s with feeder := .panicked, toPinClosed := true }
      else if s.errCh.length < 1 + maxWorkers then
        some { s with errCh := s.errCh ++ [e], feeder := .done, toPinClosed := true }
      else none
    | _ => none
  | .feederFinish =>
    match s.feeder, s.jobs with
    | .running, [] => some { s with feeder := .done, toPinClosed := true }
    | _, _ => none
  | .workerTake i =>
    match s.workers.get? i, s.toPinCh with
    | some .idle, c :: rest =>
      some { s with toPinCh := rest, workers := s.workers.set i (.working c) }
    | _, _ => none
  | .workerExit i =>
    match s.workers.get? i, s.toPinCh with
    | some .idle, [] =>
      if s.toPinClosed then some { s with workers := s.workers.set i .exited } else none
    | _, _ => none
  | .workerReturn i =>
    match s.workers.get? i with
    | some (.working c) =>
      match outcome c with
      | none => some { s with workers := s.workers.set i .idle }
      | some e =>
        if s.errClosed then none
        else if s.errCh.length < 1 + maxWorkers then
          some { s with
                 errCh := s.errCh ++ [e], reported := s.reported ++ [e]
                 workers := s.workers.set i .exited }
        else none
    | _ => none
  | .cancel => some { s with ctxDone := true }
  | .mainClose =>
    match s.main with
    | .waiting =>
      if s.workers.all (fun w => w == .exited) then
        some { s with errClosed := true, main := .closed }
      else none
    | _ => none
  | .mainReceive =>
    match s.main with
    | .closed => some { s with errCh := s.errCh.tail, main := .returned s.errCh.head? }
    | _ => none

/-- A schedule: the steps are taken one after the other, `none` as soon as one
of them cannot be taken. -/
def poolRun (maxWorkers : Nat) (outcome : Cid → Option GoError) (showProgress : Bool) :
    PoolState → List PoolAction → Option PoolState
  | s, [] => some s
  | s, a :: rest =>
    match poolStep maxWorkers outcome showProgress s a with
    | none => none
    | some s1 => poolRun maxWorkers outcome showProgress s1 rest

/-- Three DAGs of which the first two fail with distinct fatal errors. -/
def twoFailures : Cid → Option GoError := fun c =>
  if c.str = "c1" then some (.other "e1")
  else if c.str = "c2" then some (.other "e2")
  else none

/-- Two workers both report before the feeder looks at `errCh`; the feeder
takes the first error out and puts it back behind the second. -/
def reorderSchedule : List PoolAction :=
  [.feederSend, .feederSend, .workerTake 0, .workerTake 1, .workerReturn 0, .workerReturn 1,
   .feederTakeErr, .feederRequeue, .mainClose, .mainReceive]

/-- The single worker reports and returns; the feeder takes the error out, and
before it puts it back the main goroutine closes `errCh` and reads it. -/
def lossSchedule : List PoolAction :=
  [.feederSend, .workerTake 0, .workerReturn 0, .feederTakeErr, .mainClose, .mainReceive,
   .feederRequeue]

/-- Three rows whose keys are not in order, each carrying a deal: key `A`
(active), key `B` (published), key `A` again (terminated). -/
def unsortedRows : List Row :=
  [sampleRow "A" "c1" 0 (some "active"), sampleRow "B" "c2" 0 (some "published"),
   sampleRow "A" "c3" 0 (some "terminated")]

/-! # Theorems -/

theorem buildRequest_length (env : ExportEnv) :
    ∀ (us : List cfStatusUpdate) (ps : List WorkersKVPair),
      buildRequest env us = .ok ps → ps.length = us.length := by
  intro us
  induction us with
  | nil => intro ps h; simp [buildRequest] at h; subst h; rfl
  | cons u rest ih =>
    intro ps h
    unfold buildRequest at h
    split at h
    · simp at h
    · split at h
      · simp at h
      · rename_i ps1 hps
        simp at h
        subst h
        simp [ih ps1 hps]

theorem cfUpload_bounded (env : ExportEnv) (log : ExportLog) (updates : List cfStatusUpdate)
    (hlog : LogBounded log) (hlen : updates.length ≤ 10000) :
    LogBounded (finalLog (cfUploadAndMarkUpdates env log updates)) := by
  obtain ⟨hu, hw⟩ := hlog
  have hu1 : ∀ m ∈ log.uploads ++ [updates], m.length ≤ 10000 := by
    intro m hm
    rcases List.mem_append.1 hm with h | h
    · exact hu m h
    · simp at h; subst h; exact hlen
  unfold cfUploadAndMarkUpdates
  cases hb : buildRequest env updates with
  | error e => exact ⟨hu1, hw⟩
  | ok toUpd =>
    have hlen2 : toUpd.length ≤ 10000 := by
      rw [buildRequest_length env updates toUpd hb]; exact hlen
    have hw1 : ∀ w ∈ log.bulkWrites ++ [toUpd], w.length ≤ 10000 := by
      intro w hm
      rcases List.mem_append.1 hm with h | h
      · exact hw w h
      · simp at h; subst h; exact hlen2
    simp only
    split
    · exact ⟨hu1, hw⟩
    · cases env.cfAPI with
      | some e => exact ⟨hu1, hw⟩
      | none =>
        simp only
        cases env.writeBulk log.bulkWrites.length toUpd with
        | error e => exact ⟨hu1, hw1⟩
        | ok b =>
          cases b with
          | false => exact ⟨hu1, hw1⟩
          | true =>
            simp only
            cases env.markExported log.bulkWrites.length (List.map (fun u => u.cidv1) updates) with
            | some e => exact ⟨hu1, hw1⟩
            | none => exact ⟨hu1, hw1⟩


theorem encodePrior_bounded (env : ExportEnv) (st : LoopState)
    (h : StepBounded (.ok st)) : StepBounded (encodePrior env st) := by
  obtain ⟨hl, hlog⟩ := h
  unfold encodePrior
  split
  · split
    · exact hlog
    · split
      · exact hlog
      · exact ⟨by simpa using hl, hlog⟩
  · exact ⟨hl, hlog⟩

theorem flushAndAdd_bounded (env : ExportEnv) (st : LoopState) (r : Row)
    (h : StepBounded (.ok st)) : StepBounded (flushAndAdd env st r) := by
  obtain ⟨hl, hlog⟩ := h
  have hb := cfUpload_bounded env st.log st.updates hlog hl
  unfold flushAndAdd
  split
  · cases hc : cfUploadAndMarkUpdates env st.log st.updates with
    | error e =>
      rw [hc] at hb
      obtain ⟨log, err⟩ := e
      exact hb
    | ok log =>
      rw [hc] at hb
      exact ⟨by simp, hb⟩
  · rename_i hno
    have : st.updates.length ≤ 9999 := by
      by_contra hc
      exact hno (Or.inl (by omega))
    exact ⟨by simp; omega, hlog⟩

theorem addDeal_bounded (st : LoopState) (r : Row)
    (h : StepBounded (.ok st)) : StepBounded (addDeal st r) := by
  obtain ⟨hl, hlog⟩ := h
  unfold addDeal
  split
  · exact ⟨hl, hlog⟩
  · split
    · exact hlog
    · split
      · exact hlog
      · exact ⟨by simpa [appendDeal] using hl, hlog⟩

theorem processRow_bounded (env : ExportEnv) (st : LoopState) (r : Row)
    (h : StepBounded (.ok st)) : StepBounded (processRow env st r) := by
  unfold processRow
  split
  · exact addDeal_bounded st r h
  · unfold newGroup
    have h1 := encodePrior_bounded env st h
    cases he : encodePrior env st with
    | error e => rw [he] at h1; exact h1
    | ok st1 =>
      rw [he] at h1
      have h2 := flushAndAdd_bounded env st1 r h1
      simp only
      cases hf : flushAndAdd env st1 r with
      | error e => rw [hf] at h2; exact h2
      | ok st2 =>
        rw [hf] at h2
        exact addDeal_bounded st2 r h2

theorem scanLoop_bounded (env : ExportEnv) :
    ∀ (cursor : List (Except String Row)) (st : LoopState),
      StepBounded (.ok st) → StepBounded (scanLoop env st cursor) := by
  intro cursor
  induction cursor with
  | nil => intro st h; exact h
  | cons c rest ih =>
    intro st h
    cases c with
    | error e => exact h.2
    | ok r =>
      have h1 := processRow_bounded env st r h
      unfold scanLoop
      cases hp : processRow env st r with
      | error e => rw [hp] at h1; exact h1
      | ok st1 => rw [hp] at h1; exact ih st1 h1

/-- C2. Whatever rows the cursor delivers, sorted or not, and whatever the
external calls answer, every map handed to `cfUploadAndMarkUpdates` by the
export run (in-loop flushes and the final one) and every request it sends to
`WriteWorkersKVBulk` has at most 10,000 entries. -/
theorem bulk_write_size_limit (env : ExportEnv) (cursor : List (Except String Row))
    (rowsErr : Option String) :
    (∀ m ∈ (finalLog (oldExportStatus env cursor rowsErr)).uploads, m.length ≤ 10000) ∧
    (∀ w ∈ (finalLog (oldExportStatus env cursor rowsErr)).bulkWrites, w.length ≤ 10000) := by
  have h0 : StepBounded (.ok LoopState.init) := by
    refine ⟨by simp [LoopState.init], ?_, ?_⟩ <;> simp [LoopState.init, ExportLog.empty]
  have h1 := scanLoop_bounded env cursor LoopState.init h0
  unfold oldExportStatus
  cases hs : scanLoop env LoopState.init cursor with
  | error e => rw [hs] at h1; obtain ⟨log, err⟩ := e; exact h1
  | ok st =>
    rw [hs] at h1
    cases rowsErr with
    | some e => exact h1.2
    | none => exact cfUpload_bounded env st.log st.updates h1.2 h1.1


/-! ## Keys in order of first appearance -/

theorem distinctKeys_snoc (keys : List String) (k : String) :
    distinctKeys (keys ++ [k]) =
      if k ∈ distinctKeys keys then distinctKeys keys else distinctKeys keys ++ [k] := by
  simp [distinctKeys, List.foldl_append]

theorem mem_distinctKeys (keys : List String) (k : String) :
    k ∈ distinctKeys keys ↔ k ∈ keys := by
  induction keys using List.reverseRecOn with
  | nil => simp [distinctKeys]
  | append_singleton l a ih =>
    rw [distinctKeys_snoc]
    by_cases ha : a ∈ distinctKeys l
    · simp only [ha, if_true, List.mem_append, List.mem_singleton]
      constructor
      · intro h; exact Or.inl (ih.1 h)
      · rintro (h | h)
        · exact ih.2 h
        · subst h; exact ha
    · simp only [ha, if_false, List.mem_append, List.mem_singleton, ih]

theorem nodup_distinctKeys (keys : List String) : (distinctKeys keys).Nodup := by
  induction keys using List.reverseRecOn with
  | nil => simp [distinctKeys]
  | append_singleton l a ih =>
    rw [distinctKeys_snoc]
    by_cases ha : a ∈ distinctKeys l
    · simpa [ha] using ih
    · simp only [ha, if_false]
      exact List.Nodup.append ih (List.nodup_singleton a) (by simpa using ha)

theorem distinctKeys_append (a b : List String) :
    ∃ t, distinctKeys (a ++ b) = distinctKeys a ++ t := by
  induction b using List.reverseRecOn with
  | nil => exact ⟨[], by simp⟩
  | append_singleton l x ih =>
    obtain ⟨t, ht⟩ := ih
    rw [← List.append_assoc, distinctKeys_snoc]
    by_cases hx : x ∈ distinctKeys (a ++ l)
    · exact ⟨t, by rw [if_pos hx, ht]⟩
    · exact ⟨t ++ [x], by rw [if_neg hx, ht, List.append_assoc]⟩

theorem distinctKeys_perm_dedup (keys : List String) : (distinctKeys keys).Perm keys.dedup := by
  refine (List.perm_ext_iff_of_nodup (nodup_distinctKeys keys) (List.nodup_dedup keys)).2 ?_
  intro k
  rw [mem_distinctKeys, List.mem_dedup]

/-! ## Deal lists -/

theorem dealsOf_snoc (done : List Row) (r : Row) (k : String) :
    dealsOf (done ++ [r]) k =
      dealsOf done k ++ (if r.key = k then (rowDeal r).toList else []) := by
  unfold dealsOf
  rw [List.filter_append, List.filterMap_append]
  by_cases h : r.key = k
  · simp [h, List.filterMap_cons]
    cases rowDeal r <;> simp
  · simp [h]

theorem dealsOf_snoc_ne (done : List Row) (r : Row) (k : String) (h : r.key ≠ k) :
    dealsOf (done ++ [r]) k = dealsOf done k := by
  rw [dealsOf_snoc]; simp [h]

theorem dealsOf_not_mem (rows : List Row) (k : String)
    (h : k ∉ rows.map (fun r => r.key)) : dealsOf rows k = [] := by
  unfold dealsOf
  have : rows.filter (fun r => r.key = k) = [] := by
    rw [List.filter_eq_nil_iff]
    intro r hr
    simp only [decide_eq_true_eq]
    intro hk
    exact h (List.mem_map.2 ⟨r, hr, hk⟩)
  rw [this]; rfl

theorem dealsOf_append_not_mem (done rest : List Row) (k : String)
    (h : k ∉ rest.map (fun r => r.key)) : dealsOf (done ++ rest) k = dealsOf done k := by
  have h2 := dealsOf_not_mem rest k h
  unfold dealsOf at *
  rw [List.filter_append, List.filterMap_append, h2, List.append_nil]

/-! ## Map lookups -/

theorem lookup_eq_none (us : List cfStatusUpdate) (k : String) :
    lookup us k = none ↔ k ∉ us.map (fun u => u.key) := by
  unfold lookup
  rw [List.find?_eq_none]
  simp only [beq_iff_eq, List.mem_map, not_exists, not_and]

theorem lookup_eq_some (us : List cfStatusUpdate) (k : String) (u : cfStatusUpdate)
    (h : lookup us k = some u) : u ∈ us ∧ u.key = k := by
  unfold lookup at h
  exact ⟨List.mem_of_find?_eq_some h, by simpa using List.find?_some h⟩

theorem lookup_isSome_of_mem (us : List cfStatusUpdate) (k : String)
    (h : k ∈ us.map (fun u => u.key)) : ∃ u, lookup us k = some u := by
  cases hl : lookup us k with
  | none => exact absurd h ((lookup_eq_none us k).1 hl)
  | some u => exact ⟨u, rfl⟩


/-! ## `cfUploadAndMarkUpdates` when nothing external fails -/

theorem encodeUpdate_pairOf (env : ExportEnv) (u : cfStatusUpdate) (p : WorkersKVPair)
    (h : encodeUpdate env u = .ok p) : PairOf env u p := by
  unfold encodeUpdate at h
  unfold PairOf
  split at h
  · rename_i he
    split at h
    · simp at h
    · rename_i v hv
      split at h
      · simp at h
      · rename_i s hs
        simp at h
        subst h
        simp [he, hv, hs]
  · rename_i he
    simp at h
    subst h
    simp [he]

theorem buildRequest_pairs (env : ExportEnv) :
    ∀ (us : List cfStatusUpdate) (ps : List WorkersKVPair),
      buildRequest env us = .ok ps → List.Forall₂ (PairOf env) us ps := by
  intro us
  induction us with
  | nil => intro ps h; simp [buildRequest] at h; subst h; exact List.Forall₂.nil
  | cons u rest ih =>
    intro ps h
    unfold buildRequest at h
    split at h
    · simp at h
    · rename_i p hp
      split at h
      · simp at h
      · rename_i ps1 hps
        simp at h
        subst h
        exact List.Forall₂.cons (encodeUpdate_pairOf env u p hp) (ih ps1 hps)

theorem pairs_keys (env : ExportEnv) (us : List cfStatusUpdate)
    (ps : List WorkersKVPair) (h : List.Forall₂ (PairOf env) us ps) :
    ps.map (fun p => p.Key) = us.map (fun u => u.key) := by
  induction h with
  | nil => rfl
  | cons hp _ ih => simp [ih, hp.1]

theorem pairs_mem (env : ExportEnv) (us : List cfStatusUpdate)
    (ps : List WorkersKVPair) (h : List.Forall₂ (PairOf env) us ps) :
    ∀ p ∈ ps, ∃ u ∈ us, PairOf env u p := by
  induction h with
  | nil => intro p hp; simp at hp
  | cons hp _ ih =>
    intro p hmem
    rcases List.mem_cons.1 hmem with h | h
    · subst h; exact ⟨_, List.mem_cons_self _ _, hp⟩
    · obtain ⟨u, hu, hup⟩ := ih p h
      exact ⟨u, List.mem_cons_of_mem _ hu, hup⟩

theorem buildRequest_good (env : ExportEnv) (henv : GoodEnv env) :
    ∀ (us : List cfStatusUpdate), (∀ u ∈ us, ∃ v, u.value = some v) →
      ∃ ps, buildRequest env us = .ok ps := by
  intro us
  induction us with
  | nil => intro _; exact ⟨[], rfl⟩
  | cons u rest ih =>
    intro hv
    obtain ⟨ps, hps⟩ := ih (fun x hx => hv x (List.mem_cons_of_mem _ hx))
    obtain ⟨v, hval⟩ := hv u (List.mem_cons_self _ _)
    obtain ⟨s, hs⟩ := henv.encodes (some v)
    have : ∃ p, encodeUpdate env u = .ok p := by
      unfold encodeUpdate
      split
      · simp [hval, hs]
      · exact ⟨_, rfl⟩
    obtain ⟨p, hp⟩ := this
    exact ⟨p :: ps, by simp [buildRequest, hp, hps]⟩

theorem cfUpload_good (env : ExportEnv) (henv : GoodEnv env) (log : ExportLog)
    (updates : List cfStatusUpdate) (hv : ∀ u ∈ updates, ∃ v, u.value = some v) :
    ∃ toUpd, List.Forall₂ (PairOf env) updates toUpd ∧
      cfUploadAndMarkUpdates env log updates = .ok
        { uploads := log.uploads ++ [updates]
          bulkWrites := log.bulkWrites ++ [toUpd]
          marked := log.marked ++ [updates.map (fun u => u.cidv1)]
          countUpdated := log.countUpdated + updates.length } := by
  obtain ⟨toUpd, hb⟩ := buildRequest_good env henv updates hv
  refine ⟨toUpd, buildRequest_pairs env updates toUpd hb, ?_⟩
  unfold cfUploadAndMarkUpdates
  simp [hb, henv.configured, henv.api, henv.writes, henv.marks]


/-! ## Preservation of the loop invariant -/

theorem appendDeal_keys (us : List cfStatusUpdate) (k : String) (d : cfStatusDealEntry) :
    (appendDeal us k d).map (fun u => u.key) = us.map (fun u => u.key) := by
  unfold appendDeal
  rw [List.map_map]
  apply List.map_congr_left
  intro u _
  simp only [Function.comp]
  split <;> rfl

theorem find?_snoc_of_some (l : List Row) (r x : Row) (p : Row → Bool)
    (h : l.find? p = some x) : (l ++ [r]).find? p = some x := by
  rw [List.find?_append, h]; rfl

theorem markedWith_snoc (done : List Row) (r : Row) (w : List WorkersKVPair) (m : List String)
    (h : MarkedWith done w m) : MarkedWith (done ++ [r]) w m := by
  intro p hp
  obtain ⟨r0, h0, h1⟩ := h p hp
  exact ⟨r0, find?_snoc_of_some _ _ _ _ h0, h1⟩

theorem mem_keys_of_inv {env : ExportEnv} {rows keyRows dealRows : List Row} {st : LoopState}
    (hinv : Inv env rows keyRows dealRows st) (k : String)
    (hk : k ∈ st.updates.map (fun u => u.key)) : k ∈ keyRows.map (fun r => r.key) := by
  rw [← mem_distinctKeys, ← hinv.keys]
  exact List.mem_append_right _ hk

theorem written_key_ne_of_inv {env : ExportEnv} {rows keyRows dealRows : List Row}
    {st : LoopState} (hinv : Inv env rows keyRows dealRows st) (p : WorkersKVPair)
    (hp : p ∈ st.log.written) (k : String) (hk : k ∈ st.updates.map (fun u => u.key)) :
    p.Key ≠ k := by
  have hnd := nodup_distinctKeys (keyRows.map (fun r => r.key))
  rw [← hinv.keys] at hnd
  have hdis := (List.nodup_append.1 hnd).2.2
  intro heq
  exact hdis (List.mem_map.2 ⟨p, hp, rfl⟩) (heq ▸ hk)

/-- A row whose key is already in the map continues the current group. -/
theorem inv_register_same {env : ExportEnv} {rows done : List Row} {st : LoopState}
    (hinv : Inv env rows done done st) (r : Row) (u : cfStatusUpdate)
    (hl : lookup st.updates r.key = some u)
    (hle : ∀ k ∈ done.map (fun r => r.key), k ≤ r.key) :
    st.priorKey = r.key ∧ Inv env rows (done ++ [r]) done st := by
  obtain ⟨hu, huk⟩ := lookup_eq_some _ _ _ hl
  have hmem : r.key ∈ st.updates.map (fun u => u.key) := List.mem_map.2 ⟨u, hu, huk⟩
  have hdone : r.key ∈ done.map (fun r => r.key) := mem_keys_of_inv hinv _ hmem
  have hprior : st.priorKey = r.key := by
    rcases hinv.last with ⟨_, _, he, _⟩ | ⟨init, hinit, _⟩
    · rw [he] at hu; simp at hu
    · have hpm : st.priorKey ∈ st.updates.map (fun u => u.key) := by
        rw [hinit]; simp
      exact le_antisymm (hle _ (mem_keys_of_inv hinv _ hpm)) (hinv.le _ hdone)
  refine ⟨hprior, ?_⟩
  have hkeys : distinctKeys ((done ++ [r]).map (fun r => r.key))
      = distinctKeys (done.map (fun r => r.key)) := by
    rw [List.map_append, List.map_singleton, distinctKeys_snoc,
      if_pos ((mem_distinctKeys _ _).2 hdone)]
  exact
    { keys := by rw [hkeys]; exact hinv.keys
      flushed := hinv.flushed
      pending := hinv.pending
      current := hinv.current
      le := by
        intro k hk
        rw [List.map_append, List.mem_append] at hk
        rcases hk with hk | hk
        · exact hinv.le k hk
        · simp at hk; rw [hk, hprior]
      last := by
        rcases hinv.last with ⟨_, _, he, _⟩ | h
        · rw [he] at hu; simp at hu
        · exact Or.inr h
      bound := hinv.bound
      full := hinv.full
      first := by
        intro x hx
        obtain ⟨r0, h0, h1⟩ := hinv.first x hx
        exact ⟨r0, find?_snoc_of_some _ _ _ _ h0, h1⟩
      flushedFirst := by
        intro p hp
        obtain ⟨r0, h0, h1⟩ := hinv.flushedFirst p hp
        exact ⟨r0, find?_snoc_of_some _ _ _ _ h0, h1⟩
      aligned := hinv.aligned.imp (fun w m h => markedWith_snoc done r w m h) }

/-- Lines 188-216 on a state in which the key of the row is registered. -/
theorem inv_addDeal {env : ExportEnv} {rows done : List Row} {st : LoopState} (r : Row)
    (hinv : Inv env rows (done ++ [r]) done st) (hprior : st.priorKey = r.key)
    (ht : ¬ skipped r → r.LastChanged ≠ none) :
    ∃ st3, addDeal st r = .ok st3 ∧ st3.log = st.log ∧
      Inv env rows (done ++ [r]) (done ++ [r]) st3 := by
  obtain ⟨init, hinit, hacc⟩ : ∃ init, st.updates.map (fun u => u.key) = init ++ [st.priorKey] ∧
      st.updatesApproxBytes ≤ (init.map (groupBytes env rows)).sum := by
    rcases hinv.last with ⟨he, _⟩ | h
    · simp at he
    · exact h
  have hpm : r.key ∈ st.updates.map (fun u => u.key) := by
    rw [hinit, hprior]; simp
  by_cases hs : skipped r
  · -- the row is skipped: nothing changes
    have hrd : rowDeal r = none := by simp [rowDeal, hs]
    have hd : ∀ k, dealsOf (done ++ [r]) k = dealsOf done k := by
      intro k; rw [dealsOf_snoc, hrd]; simp
    refine ⟨st, by simp [addDeal, hs], rfl, ?_⟩
    exact
      { keys := hinv.keys
        flushed := by intro p hp; rw [hd]; exact hinv.flushed p hp
        pending := by intro u hu; rw [hd]; exact hinv.pending u hu
        current := hinv.current
        le := hinv.le
        last := hinv.last
        bound := hinv.bound
        full := hinv.full
        first := hinv.first
        flushedFirst := hinv.flushedFirst
        aligned := hinv.aligned }
  · obtain ⟨lc, hlc⟩ : ∃ lc, r.LastChanged = some lc := by
      cases h : r.LastChanged with
      | none => exact absurd h (ht hs)
      | some lc => exact ⟨lc, rfl⟩
    have hrd : rowDeal r = some (dealEntry r lc) := by simp [rowDeal, hs, hlc]
    obtain ⟨u0, hu0⟩ := lookup_isSome_of_mem st.updates st.priorKey (by rw [hprior]; exact hpm)
    refine ⟨{ st with updates := appendDeal st.updates st.priorKey (dealEntry r lc) },
      by simp [addDeal, hs, hlc, hu0], rfl, ?_⟩
    have hmemAppend : ∀ x ∈ appendDeal st.updates st.priorKey (dealEntry r lc),
        ∃ u ∈ st.updates, x = (if u.key = st.priorKey then
          { u with value := some (u.value.getD [] ++ [dealEntry r lc]) } else u) := by
      intro x hx
      unfold appendDeal at hx
      obtain ⟨u, hu, hux⟩ := List.mem_map.1 hx
      exact ⟨u, hu, hux.symm⟩
    exact
      { keys := by
          show _ ++ (appendDeal _ _ _).map _ = _
          rw [appendDeal_keys]; exact hinv.keys
        flushed := by
          intro p hp
          have hne := written_key_ne_of_inv hinv p hp r.key hpm
          rw [dealsOf_snoc_ne _ _ _ (Ne.symm hne)]
          exact hinv.flushed p hp
        pending := by
          intro x hx
          obtain ⟨u, hu, rfl⟩ := hmemAppend x hx
          obtain ⟨hval, henc⟩ := hinv.pending u hu
          by_cases hk : u.key = st.priorKey
          · have hcur := hinv.current u hu hk
            simp only [hk, if_true]
            refine ⟨?_, Or.inl hcur⟩
            rw [hval, dealsOf_snoc, hrd, if_pos hprior.symm, ← hk]
            rfl
          · simp only [hk, if_false]
            have : r.key ≠ u.key := fun h => hk (by rw [← h, hprior])
            rw [dealsOf_snoc_ne _ _ _ this]
            exact ⟨hval, henc⟩
        current := by
          intro x hx hxk
          obtain ⟨u, hu, rfl⟩ := hmemAppend x hx
          by_cases hk : u.key = st.priorKey
          · simp only [hk, if_true]; exact hinv.current u hu hk
          · simp only [hk, if_false] at hxk
        le := hinv.le
        last := by
          refine Or.inr ⟨init, ?_, hacc⟩
          show (appendDeal _ _ _).map _ = _
          rw [appendDeal_keys]; exact hinit
        bound := by
          show (appendDeal _ _ _).length ≤ _
          simpa [appendDeal] using hinv.bound
        full := hinv.full
        first := by
          intro x hx
          obtain ⟨u, hu, rfl⟩ := hmemAppend x hx
          obtain ⟨r0, h0, h1, h2⟩ := hinv.first u hu
          by_cases hk : u.key = st.priorKey
          · simp only [hk, if_true]
            rw [hk] at h0
            exact ⟨r0, h0, h1, h2⟩
          · simp only [hk, if_false]
            exact ⟨r0, h0, h1, h2⟩
        flushedFirst := hinv.flushedFirst
        aligned := hinv.aligned }


theorem sorted_split {done rest : List Row} {r : Row} {rows : List Row}
    (hrows : rows = done ++ r :: rest)
    (hsorted : (rows.map (fun r => r.key)).Sorted (· ≤ ·)) :
    (∀ k ∈ done.map (fun r => r.key), k ≤ r.key) ∧
    (∀ k ∈ rest.map (fun r => r.key), r.key ≤ k) := by
  subst hrows
  rw [List.map_append, List.map_cons] at hsorted
  have h := List.pairwise_append.1 hsorted
  refine ⟨fun k hk => h.2.2 k hk r.key (List.mem_cons_self _ _), ?_⟩
  intro k hk
  exact List.rel_of_pairwise_cons h.2.1 hk

theorem sum_map_le_append (g : String → Nat) (a b : List String) :
    (a.map g).sum ≤ ((a ++ b).map g).sum := by
  rw [List.map_append, List.sum_append]; omega

/-- Lines 160-169 under the invariant: the finished group is encoded and its
size accounted for. -/
theorem encodePrior_inv {env : ExportEnv} (henv : GoodEnv env) {rows done : List Row}
    {st : LoopState} (hinv : Inv env rows done done st)
    (hfut : st.priorKey ≠ "" → dealsOf rows st.priorKey = dealsOf done st.priorKey) :
    ∃ st1, encodePrior env st = .ok st1 ∧ st1.log = st.log ∧ st1.priorKey = st.priorKey ∧
      st1.updates.map (fun u => u.key) = st.updates.map (fun u => u.key) ∧
      (∀ u ∈ st1.updates, u.value = some (dealsOf done u.key) ∧
        (u.valueEncoded = "" ∨ env.jsonEncode u.value = .ok u.valueEncoded)) ∧
      (∀ u ∈ st1.updates, ∃ r, done.find? (fun x => x.key == u.key) = some r ∧
        u.cidv1 = r.cidv1 ∧ u.metadata = (receiver r).metadata) ∧
      st1.updatesApproxBytes ≤
        ((st.updates.map (fun u => u.key)).map (groupBytes env rows)).sum := by
  by_cases hp : st.priorKey = ""
  · refine ⟨st, by simp [encodePrior, hp], rfl, rfl, rfl, hinv.pending, hinv.first, ?_⟩
    rcases hinv.last with ⟨_, _, _, hz⟩ | ⟨init, hinit, hacc⟩
    · rw [hz]; exact Nat.zero_le _
    · rw [hinit]; exact le_trans hacc (sum_map_le_append _ _ _)
  · obtain ⟨init, hinit, hacc⟩ : ∃ init,
        st.updates.map (fun u => u.key) = init ++ [st.priorKey] ∧
        st.updatesApproxBytes ≤ (init.map (groupBytes env rows)).sum := by
      rcases hinv.last with ⟨_, he, _⟩ | h
      · exact absurd he hp
      · exact h
    obtain ⟨p, hlp⟩ := lookup_isSome_of_mem st.updates st.priorKey (by rw [hinit]; simp)
    obtain ⟨hpm, hpk⟩ := lookup_eq_some _ _ _ hlp
    have hpv := (hinv.pending p hpm).1
    obtain ⟨s, hs⟩ := henv.encodes p.value
    refine ⟨{ st with
        updates := st.updates.map
          (fun u => if u.key = st.priorKey then { u with valueEncoded := s } else u)
        updatesApproxBytes := st.updatesApproxBytes + s.utf8ByteSize },
      by simp [encodePrior, hp, hlp, hs], rfl, rfl, ?_, ?_, ?_, ?_⟩
    · show List.map _ (List.map _ _) = _
      rw [List.map_map]
      apply List.map_congr_left
      intro u _
      simp only [Function.comp]
      split <;> rfl
    · intro x hx
      obtain ⟨u, hu, rfl⟩ := List.mem_map.1 hx
      obtain ⟨hval, henc⟩ := hinv.pending u hu
      by_cases hk : u.key = st.priorKey
      · simp only [hk, if_true]
        refine ⟨by rw [← hk]; exact hval, Or.inr ?_⟩
        show env.jsonEncode u.value = .ok s
        rw [hval, hk, ← hpk, ← hpv]; exact hs
      · simp only [hk, if_false]; exact ⟨hval, henc⟩
    · intro x hx
      obtain ⟨u, hu, rfl⟩ := List.mem_map.1 hx
      obtain ⟨r0, h0⟩ := hinv.first u hu
      by_cases hk : u.key = st.priorKey
      · simp only [hk, if_true]; rw [hk] at h0; exact ⟨r0, h0⟩
      · simp only [hk, if_false]; exact ⟨r0, h0⟩
    · show st.updatesApproxBytes + s.utf8ByteSize ≤ _
      have hg : groupBytes env rows st.priorKey = s.utf8ByteSize := by
        unfold groupBytes
        rw [hfut hp, ← hpk, ← hpv, hs]
      rw [hinit, List.map_append, List.sum_append]
      simp only [List.map_cons, List.map_nil, List.sum_cons, List.sum_nil, hg]
      omega

/-- When no block of 10,000 groups passes the byte threshold, the accumulator
stays below it. -/
theorem pending_bytes_le (env : ExportEnv) (rows : List Row)
    (hb : BytesBelowThreshold env rows) (flushedKeys mapKeys t : List String) (j : Nat)
    (hD : distinctKeys (rows.map (fun r => r.key)) = (flushedKeys ++ mapKeys) ++ t)
    (ht : t ≠ []) (hj : flushedKeys.length = 10000 * j) (hm : mapKeys.length ≤ 10000) :
    (mapKeys.map (groupBytes env rows)).sum ≤ 85 <<< 20 := by
  have h := hb j
  rw [hD, List.dropLast_append_of_ne_nil _ ht, List.append_assoc, ← hj, List.drop_left,
    List.take_append_eq_append_take, List.take_of_length_le hm] at h
  exact le_trans (sum_map_le_append _ _ _) h

theorem length_written_of_full (log : ExportLog)
    (h : ∀ w ∈ log.bulkWrites, w.length = 10000) :
    log.written.length = 10000 * log.bulkWrites.length := by
  unfold ExportLog.written
  rw [List.length_flatten]
  generalize log.bulkWrites = ws at h
  induction ws with
  | nil => rfl
  | cons w ws ih =>
    simp only [List.map_cons, List.sum_cons, List.length_cons]
    rw [h w (List.mem_cons_self _ _), ih (fun x hx => h x (List.mem_cons_of_mem _ hx))]
    omega


theorem find?_snoc_new (done : List Row) (r : Row)
    (h : r.key ∉ done.map (fun r => r.key)) :
    (done ++ [r]).find? (fun x => x.key == r.key) = some r := by
  have hn : done.find? (fun x => x.key == r.key) = none := by
    rw [List.find?_eq_none]
    intro x hx hk
    exact h (List.mem_map.2 ⟨x, hx, by simpa using hk⟩)
  rw [List.find?_append, hn]
  simp

/-- A row whose key is not in the map starts a new group (lines 157-186). -/
theorem inv_register_new {env : ExportEnv} (henv : GoodEnv env) {rows done rest : List Row}
    {st : LoopState} {r : Row} (hinv : Inv env rows done done st)
    (hl : lookup st.updates r.key = none) (hrows : rows = done ++ r :: rest)
    (hsorted : (rows.map (fun r => r.key)).Sorted (· ≤ ·)) :
    ∃ st2, newGroup env st r = .ok st2 ∧ st2.priorKey = r.key ∧
      Inv env rows (done ++ [r]) done st2 := by
  obtain ⟨hle, hrest⟩ := sorted_split hrows hsorted
  have hnotmap : r.key ∉ st.updates.map (fun u => u.key) := (lookup_eq_none _ _).1 hl
  -- the prior key, when there is one, is in the map and differs from the new key
  have hpriorMem : (st.priorKey ≠ "" ∨ done ≠ []) →
      st.priorKey ∈ st.updates.map (fun u => u.key) := by
    intro hne
    rcases hinv.last with ⟨he, hp, _⟩ | ⟨init, hinit, _⟩
    · rcases hne with h | h
      · exact absurd hp h
      · exact absurd he h
    · rw [hinit]; simp
  have hnotdone : r.key ∉ done.map (fun r => r.key) := by
    intro hmem
    have hne : done ≠ [] := by rintro rfl; simp at hmem
    have h1 := hinv.le _ hmem
    have h2 := hle _ (mem_keys_of_inv hinv _ (hpriorMem (Or.inr hne)))
    exact hnotmap (le_antisymm h1 h2 ▸ hpriorMem (Or.inr hne))
  have hfut : st.priorKey ≠ "" → dealsOf rows st.priorKey = dealsOf done st.priorKey := by
    intro hp
    have hpm := hpriorMem (Or.inl hp)
    have hpr : st.priorKey ≤ r.key := hle _ (mem_keys_of_inv hinv _ hpm)
    have hner : st.priorKey ≠ r.key := fun h => hnotmap (h ▸ hpm)
    rw [hrows]
    apply dealsOf_append_not_mem
    intro hmem
    rw [List.map_cons, List.mem_cons] at hmem
    rcases hmem with h | h
    · exact hner h
    · exact hner (le_antisymm hpr (hrest _ h))
  obtain ⟨st1, he1, hlog1, hprior1, hkeys1, hpend1, hfirst1, hacc1⟩ :=
    encodePrior_inv henv hinv hfut
  have hlen1 : st1.updates.length = st.updates.length := by
    have := congrArg List.length hkeys1
    simpa using this
  have hnotmap1 : r.key ∉ st1.updates.map (fun u => u.key) := by rw [hkeys1]; exact hnotmap
  have hdist : distinctKeys ((done ++ [r]).map (fun r => r.key))
      = distinctKeys (done.map (fun r => r.key)) ++ [r.key] := by
    rw [List.map_append, List.map_singleton, distinctKeys_snoc,
      if_neg (fun h => hnotdone ((mem_distinctKeys _ _).1 h))]
  have hleNew : ∀ k ∈ (done ++ [r]).map (fun r => r.key), k ≤ r.key := by
    intro k hk
    rw [List.map_append, List.mem_append] at hk
    rcases hk with hk | hk
    · exact hle k hk
    · simp at hk; rw [hk]
  have hrecvPending : (receiver r).value = some (dealsOf done (receiver r).key) ∧
      ((receiver r).valueEncoded = "" ∨
        env.jsonEncode (receiver r).value = .ok (receiver r).valueEncoded) :=
    ⟨by rw [show (receiver r).key = r.key from rfl, dealsOf_not_mem done r.key hnotdone]; rfl,
      Or.inl rfl⟩
  have hrecvFirst : ∃ r0, (done ++ [r]).find? (fun x => x.key == (receiver r).key) = some r0 ∧
      (receiver r).cidv1 = r0.cidv1 ∧ (receiver r).metadata = (receiver r0).metadata :=
    ⟨r, find?_snoc_new done r hnotdone, rfl, rfl⟩
  by_cases hc : st1.updates.length > 9999 ∨ st1.updatesApproxBytes > 85 <<< 20
  · -- the batch is flushed first
    obtain ⟨toUpd, hpairs, hup⟩ := cfUpload_good env henv st1.log st1.updates
      (fun u hu => ⟨_, (hpend1 u hu).1⟩)
    have hpk := pairs_keys env _ _ hpairs
    have hpmem := pairs_mem env _ _ hpairs
    refine ⟨{ priorKey := r.key, updates := [receiver r], updatesApproxBytes := 0,
              log := { uploads := st1.log.uploads ++ [st1.updates]
                       bulkWrites := st1.log.bulkWrites ++ [toUpd]
                       marked := st1.log.marked ++ [st1.updates.map (fun u => u.cidv1)]
                       countUpdated := st1.log.countUpdated + st1.updates.length } },
      by unfold newGroup; rw [he1]; show flushAndAdd env st1 r = _
         unfold flushAndAdd; rw [if_pos hc, hup], rfl, ?_⟩
    have hwritten : ∀ p, p ∈ (st.log.bulkWrites ++ [toUpd]).flatten ↔
        p ∈ st.log.written ∨ p ∈ toUpd := by
      intro p
      simp [ExportLog.written, List.flatten_append]
    exact
      { keys := by
          show List.map _ (st1.log.bulkWrites ++ [toUpd]).flatten ++ [r.key] = _
          rw [hdist, ← hinv.keys, hlog1, List.flatten_append, List.map_append]
          simp only [List.flatten_cons, List.flatten_nil, List.append_nil, hpk, hkeys1]
          rfl
        flushed := by
          intro p hp
          change p ∈ (st1.log.bulkWrites ++ [toUpd]).flatten at hp
          rw [hlog1, hwritten] at hp
          rcases hp with hp | hp
          · exact hinv.flushed p hp
          · obtain ⟨u, hu, hk, _, hv⟩ := hpmem p hp
            obtain ⟨hval, henc⟩ := hpend1 u hu
            rw [hk, ← hval]
            by_cases hve : u.valueEncoded = ""
            · rw [if_pos hve] at hv; exact hv
            · rw [if_neg hve] at hv
              rcases henc with h | h
              · exact absurd h hve
              · rw [hv]; exact h
        pending := by
          intro u hu
          simp only [List.mem_singleton] at hu
          subst hu; exact hrecvPending
        current := by
          intro u hu _
          simp only [List.mem_singleton] at hu
          subst hu; rfl
        le := hleNew
        last := Or.inr ⟨[], rfl, Nat.zero_le _⟩
        bound := by simp
        full := by
          intro hb w hw
          change w ∈ st1.log.bulkWrites ++ [toUpd] at hw
          rw [hlog1, List.mem_append] at hw
          rcases hw with hw | hw
          · exact hinv.full hb w hw
          · simp only [List.mem_singleton] at hw
            subst hw
            have hlenw : w.length = st1.updates.length := by
              have := congrArg List.length hpk
              simpa using this
            have hbound : st1.updates.length ≤ 10000 := by rw [hlen1]; exact hinv.bound
            obtain ⟨t, ht⟩ := distinctKeys_append (done.map (fun r => r.key))
              ((r :: rest).map (fun r => r.key))
            have htne : t ≠ [] := by
              rintro rfl
              have hmem : r.key ∈ distinctKeys (done.map (fun r => r.key) ++
                  (r :: rest).map (fun r => r.key)) := by
                rw [mem_distinctKeys]; simp
              rw [ht, List.append_nil, mem_distinctKeys] at hmem
              exact hnotdone hmem
            rw [← List.map_append, ← hrows, ← hinv.keys] at ht
            have hbytes := pending_bytes_le env rows hb _ _ t st.log.bulkWrites.length ht htne
              (by rw [List.length_map]; exact length_written_of_full _ (hinv.full hb))
              (by rw [List.length_map]; exact hinv.bound)
            have : ¬ st1.updatesApproxBytes > 85 <<< 20 :=
              not_lt.2 (le_trans hacc1 hbytes)
            rcases hc with h | h
            · omega
            · exact absurd h this
        first := by
          intro u hu
          simp only [List.mem_singleton] at hu
          subst hu; exact hrecvFirst
        flushedFirst := by
          intro p hp
          change p ∈ (st1.log.bulkWrites ++ [toUpd]).flatten at hp
          show ∃ r0, _ ∧ _ ∧ r0.cidv1 ∈
            (st1.log.marked ++ [st1.updates.map (fun u => u.cidv1)]).flatten
          rw [hlog1, hwritten] at hp
          rw [List.flatten_append, hlog1]
          rcases hp with hp | hp
          · obtain ⟨r0, h0, h1, h2⟩ := hinv.flushedFirst p hp
            exact ⟨r0, find?_snoc_of_some _ _ _ _ h0, h1, List.mem_append_left _ h2⟩
          · obtain ⟨u, hu, hk, hm, _⟩ := hpmem p hp
            obtain ⟨r0, h0, h1, h2⟩ := hfirst1 u hu
            refine ⟨r0, find?_snoc_of_some _ _ _ _ (by rw [hk]; exact h0), by rw [hm]; exact h2,
              List.mem_append_right _ ?_⟩
            simp only [List.flatten_cons, List.flatten_nil, List.append_nil]
            exact List.mem_map.2 ⟨u, hu, h1⟩
        aligned := by
          show List.Forall₂ _ (st1.log.bulkWrites ++ [toUpd])
            (st1.log.marked ++ [st1.updates.map (fun u => u.cidv1)])
          rw [hlog1]
          refine List.rel_append
            (hinv.aligned.imp (fun w m h => markedWith_snoc done r w m h))
            (List.Forall₂.cons ?_ List.Forall₂.nil)
          intro p hp
          obtain ⟨u, hu, hk, hm, _⟩ := hpmem p hp
          obtain ⟨r0, h0, h1, h2⟩ := hfirst1 u hu
          exact ⟨r0, find?_snoc_of_some _ _ _ _ (by rw [hk]; exact h0), by rw [hm]; exact h2,
            List.mem_map.2 ⟨u, hu, h1⟩⟩ }
  · -- no flush: the new record joins the pending map
    refine ⟨{ st1 with priorKey := r.key, updates := st1.updates ++ [receiver r] },
      by unfold newGroup; rw [he1]; show flushAndAdd env st1 r = _
         unfold flushAndAdd; rw [if_neg hc], rfl, ?_⟩
    exact
      { keys := by
          show _ ++ List.map _ (st1.updates ++ [receiver r]) = _
          rw [hdist, ← hinv.keys, hlog1, List.map_append, hkeys1, List.append_assoc]
          rfl
        flushed := by
          intro p hp
          change p ∈ st1.log.written at hp
          rw [hlog1] at hp
          exact hinv.flushed p hp
        pending := by
          intro u hu
          change u ∈ st1.updates ++ [receiver r] at hu
          rcases List.mem_append.1 hu with h | h
          · exact hpend1 u h
          · simp only [List.mem_singleton] at h
            subst h; exact hrecvPending
        current := by
          intro u hu hk
          change u ∈ st1.updates ++ [receiver r] at hu
          change u.key = r.key at hk
          rcases List.mem_append.1 hu with h | h
          · exact absurd (List.mem_map.2 ⟨u, h, hk⟩) hnotmap1
          · simp only [List.mem_singleton] at h
            subst h; rfl
        le := hleNew
        last := by
          refine Or.inr ⟨st.updates.map (fun u => u.key), ?_, hacc1⟩
          show List.map _ (st1.updates ++ [receiver r]) = _
          rw [List.map_append, hkeys1]; rfl
        bound := by
          show (st1.updates ++ [receiver r]).length ≤ 10000
          have : st1.updates.length ≤ 9999 := by
            by_contra hcon
            exact hc (Or.inl (by omega))
          simp; omega
        full := by
          intro hb w hw
          change w ∈ st1.log.bulkWrites at hw
          rw [hlog1] at hw
          exact hinv.full hb w hw
        first := by
          intro u hu
          change u ∈ st1.updates ++ [receiver r] at hu
          rcases List.mem_append.1 hu with h | h
          · obtain ⟨r0, h0, h1⟩ := hfirst1 u h
            exact ⟨r0, find?_snoc_of_some _ _ _ _ h0, h1⟩
          · simp only [List.mem_singleton] at h
            subst h; exact hrecvFirst
        flushedFirst := by
          intro p hp
          change p ∈ st1.log.written at hp
          show ∃ r0, _ ∧ _ ∧ r0.cidv1 ∈ st1.log.marked.flatten
          rw [hlog1] at hp ⊢
          obtain ⟨r0, h0, h1⟩ := hinv.flushedFirst p hp
          exact ⟨r0, find?_snoc_of_some _ _ _ _ h0, h1⟩
        aligned := by
          show List.Forall₂ _ st1.log.bulkWrites st1.log.marked
          rw [hlog1]
          exact hinv.aligned.imp (fun w m h => markedWith_snoc done r w m h) }


/-- One iteration of the scan keeps the invariant, and does not fail. -/
theorem processRow_inv {env : ExportEnv} (henv : GoodEnv env) {rows done rest : List Row}
    {st : LoopState} {r : Row} (hinv : Inv env rows done done st)
    (hrows : rows = done ++ r :: rest)
    (hsorted : (rows.map (fun r => r.key)).Sorted (· ≤ ·))
    (ht : ¬ skipped r → r.LastChanged ≠ none) :
    ∃ st1, processRow env st r = .ok st1 ∧ Inv env rows (done ++ [r]) (done ++ [r]) st1 := by
  cases hl : lookup st.updates r.key with
  | some u =>
    obtain ⟨hprior, hinv1⟩ := inv_register_same hinv r u hl (sorted_split hrows hsorted).1
    obtain ⟨st3, h3, _, hinv3⟩ := inv_addDeal r hinv1 hprior ht
    exact ⟨st3, by unfold processRow; rw [hl]; exact h3, hinv3⟩
  | none =>
    obtain ⟨st2, h2, hprior, hinv2⟩ := inv_register_new henv hinv hl hrows hsorted
    obtain ⟨st3, h3, _, hinv3⟩ := inv_addDeal r hinv2 hprior ht
    exact ⟨st3, by unfold processRow; rw [hl]; simp only [h2]; exact h3, hinv3⟩

theorem inv_init (env : ExportEnv) (rows : List Row) :
    Inv env rows [] [] LoopState.init :=
  { keys := by simp [LoopState.init, ExportLog.empty, ExportLog.written, distinctKeys]
    flushed := by intro p hp; simp [LoopState.init, ExportLog.empty, ExportLog.written] at hp
    pending := by intro u hu; simp [LoopState.init] at hu
    current := by intro u hu; simp [LoopState.init] at hu
    le := by intro k hk; simp at hk
    last := Or.inl ⟨rfl, rfl, rfl, rfl⟩
    bound := by simp [LoopState.init]
    full := by intro _ w hw; simp [LoopState.init, ExportLog.empty] at hw
    first := by intro u hu; simp [LoopState.init] at hu
    flushedFirst := by
      intro p hp; simp [LoopState.init, ExportLog.empty, ExportLog.written] at hp
    aligned := List.Forall₂.nil }

/-- The whole scan over key-sorted rows keeps the invariant, and does not fail. -/
theorem scanLoop_inv {env : ExportEnv} (henv : GoodEnv env) (rows : List Row)
    (hsorted : (rows.map (fun r => r.key)).Sorted (· ≤ ·)) (ht : RowsTimed rows) :
    ∀ (rest done : List Row) (st : LoopState), rows = done ++ rest →
      Inv env rows done done st →
      ∃ st1, scanLoop env st (rest.map Except.ok) = .ok st1 ∧ Inv env rows rows rows st1 := by
  intro rest
  induction rest with
  | nil =>
    intro done st hrows hinv
    rw [List.append_nil] at hrows
    subst hrows
    exact ⟨st, rfl, hinv⟩
  | cons r rest ih =>
    intro done st hrows hinv
    have hr : r ∈ rows := by rw [hrows]; simp
    obtain ⟨st1, h1, hinv1⟩ := processRow_inv henv hinv hrows hsorted (ht r hr)
    obtain ⟨st2, h2, hinv2⟩ := ih (done ++ [r]) st1 (by rw [hrows]; simp) hinv1
    refine ⟨st2, ?_, hinv2⟩
    rw [List.map_cons]
    unfold scanLoop
    simp only [h1]
    exact h2

/-- The run over key-sorted rows in a failure-free environment: it succeeds,
and its log is the log of the scan plus one final bulk write of the pending
map. -/
theorem oldExportStatus_sorted {env : ExportEnv} (henv : GoodEnv env) (rows : List Row)
    (hsorted : (rows.map (fun r => r.key)).Sorted (· ≤ ·)) (ht : RowsTimed rows) :
    ∃ st toUpd, Inv env rows rows rows st ∧ List.Forall₂ (PairOf env) st.updates toUpd ∧
      oldExportStatus env (rows.map Except.ok) none = .ok
        { uploads := st.log.uploads ++ [st.updates]
          bulkWrites := st.log.bulkWrites ++ [toUpd]
          marked := st.log.marked ++ [st.updates.map (fun u => u.cidv1)]
          countUpdated := st.log.countUpdated + st.updates.length } := by
  obtain ⟨st, hs, hinv⟩ := scanLoop_inv henv rows hsorted ht rows [] LoopState.init rfl
    (inv_init env rows)
  obtain ⟨toUpd, hpairs, hup⟩ := cfUpload_good env henv st.log st.updates
    (fun u hu => ⟨_, (hinv.pending u hu).1⟩)
  refine ⟨st, toUpd, hinv, hpairs, ?_⟩
  unfold oldExportStatus
  simp only [hs]
  exact hup

/-- Keys and values written by a run over key-sorted rows. -/
theorem sorted_run_written (env : ExportEnv) (rows : List Row) (henv : GoodEnv env)
    (hsorted : (rows.map (fun r => r.key)).Sorted (· ≤ ·)) (ht : RowsTimed rows) :
    ∃ log, oldExportStatus env (rows.map Except.ok) none = .ok log ∧
      (log.written.map (fun p => p.Key)).Perm (rows.map (fun r => r.key)).dedup ∧
      ∀ p ∈ log.written, env.jsonEncode (some (dealsOf rows p.Key)) = .ok p.Value := by
  obtain ⟨st, toUpd, hinv, hpairs, hrun⟩ := oldExportStatus_sorted henv rows hsorted ht
  refine ⟨_, hrun, ?_, ?_⟩
  · refine List.Perm.trans (List.Perm.of_eq ?_) (distinctKeys_perm_dedup _)
    rw [← hinv.keys]
    simp only [ExportLog.written, List.flatten_append, List.map_append, List.flatten_cons,
      List.flatten_nil, List.append_nil, pairs_keys env _ _ hpairs]
  · intro p hp
    simp only [ExportLog.written, List.flatten_append, List.flatten_cons, List.flatten_nil,
      List.append_nil, List.mem_append] at hp
    rcases hp with hp | hp
    · exact hinv.flushed p hp
    · obtain ⟨u, hu, hk, _, hv⟩ := pairs_mem env _ _ hpairs p hp
      obtain ⟨hval, henc⟩ := hinv.pending u hu
      rw [hk, ← hval]
      by_cases hve : u.valueEncoded = ""
      · rw [if_pos hve] at hv; exact hv
      · rw [if_neg hve] at hv
        rcases henc with h | h
        · exact absurd h hve
        · rw [hv]; exact h


/-- C1. For rows delivered in non-decreasing key order (every non-skipped row
carrying its last-changed timestamp, no external call failing), the export run
succeeds, and the key/value pairs of all its bulk writes together, in-loop
flushes and final flush, hold exactly one pair per distinct key: their keys
are a permutation of the distinct keys, so there are as many pairs as distinct
keys (three for groups of sizes 1, 1 and 5000). The value of each pair is the
encoding of the deal entries built from the non-skipped rows of its key, in
input order, wherever the flush boundaries fell. -/
theorem export_grouping (env : ExportEnv) (rows : List Row) (henv : GoodEnv env)
    (hsorted : (rows.map (fun r => r.key)).Sorted (· ≤ ·)) (ht : RowsTimed rows) :
    ∃ log, oldExportStatus env (rows.map Except.ok) none = .ok log ∧
      (log.written.map (fun p => p.Key)).Perm (rows.map (fun r => r.key)).dedup ∧
      log.written.length = (rows.map (fun r => r.key)).dedup.length ∧
      ∀ p ∈ log.written, env.jsonEncode (some (dealsOf rows p.Key)) = .ok p.Value := by
  obtain ⟨st, toUpd, hinv, hpairs, hrun⟩ := oldExportStatus_sorted henv rows hsorted ht
  have hperm : (List.map (fun p => p.Key) (st.log.bulkWrites ++ [toUpd]).flatten).Perm
      (rows.map (fun r => r.key)).dedup := by
    refine List.Perm.trans (List.Perm.of_eq ?_) (distinctKeys_perm_dedup _)
    rw [← hinv.keys]
    simp only [ExportLog.written, List.flatten_append, List.map_append, List.flatten_cons,
      List.flatten_nil, List.append_nil, pairs_keys env _ _ hpairs]
  refine ⟨_, hrun, hperm, ?_, ?_⟩
  · have := hperm.length_eq
    rw [List.length_map] at this
    exact this
  · intro p hp
    simp only [ExportLog.written, List.flatten_append, List.flatten_cons, List.flatten_nil,
      List.append_nil, List.mem_append] at hp
    rcases hp with hp | hp
    · exact hinv.flushed p hp
    · obtain ⟨u, hu, hk, _, hv⟩ := pairs_mem env _ _ hpairs p hp
      obtain ⟨hval, henc⟩ := hinv.pending u hu
      rw [hk, ← hval]
      by_cases hve : u.valueEncoded = ""
      · rw [if_pos hve] at hv; exact hv
      · rw [if_neg hve] at hv
        rcases henc with h | h
        · exact absurd h hve
        · rw [hv]; exact h

theorem sampleEnv_good : GoodEnv sampleEnv :=
  { encodes := fun v => by cases v <;> exact ⟨_, rfl⟩
    configured := by decide
    api := rfl
    writes := fun _ _ => rfl
    marks := fun _ _ => rfl }

theorem sampleRows_sorted : (sampleRows.map (fun r => r.key)).Sorted (· ≤ ·) := by
  simp only [sampleRows, sampleRow, List.map_cons, List.map_nil, List.Sorted, List.pairwise_cons,
    String.le_iff_toList_le]
  decide

theorem sampleRows_timed : RowsTimed sampleRows := by
  unfold RowsTimed; decide

theorem sampleRows_bytes : BytesBelowThreshold sampleEnv sampleRows := by
  intro j
  rcases j with _ | j
  · decide
  · have h : (distinctKeys (sampleRows.map (fun r => r.key))).dropLast = ["a"] := by decide
    rw [h, List.drop_eq_nil_of_le (by simp; omega)]
    simp

/-- Witness of C1 on three rows with two distinct keys. -/
theorem export_grouping_witness :
    GoodEnv sampleEnv ∧ (sampleRows.map (fun r => r.key)).Sorted (· ≤ ·) ∧ RowsTimed sampleRows ∧
    ∃ log, oldExportStatus sampleEnv (sampleRows.map Except.ok) none = .ok log ∧
      (log.written.map (fun p => p.Key)).Perm (sampleRows.map (fun r => r.key)).dedup ∧
      log.written.length = (sampleRows.map (fun r => r.key)).dedup.length ∧
      ∀ p ∈ log.written, sampleEnv.jsonEncode (some (dealsOf sampleRows p.Key)) = .ok p.Value :=
  ⟨sampleEnv_good, sampleRows_sorted, sampleRows_timed,
    export_grouping sampleEnv sampleRows sampleEnv_good sampleRows_sorted sampleRows_timed⟩

theorem lengths_eq_replicate (ws : List (List WorkersKVPair))
    (h : ∀ w ∈ ws, w.length = 10000) : ws.map List.length = List.replicate ws.length 10000 := by
  rw [List.eq_replicate_iff]
  refine ⟨by simp, ?_⟩
  intro n hn
  obtain ⟨w, hw, rfl⟩ := List.mem_map.1 hn
  exact h w hw

/-- C3. For key-sorted rows with `n ≥ 1` distinct keys whose accumulated
encoded bytes stay below the byte threshold (no external call failing), the
export run succeeds and issues exactly `⌈n / 10000⌉` bulk writes: every one but
the last carries 10,000 pairs, the last carries the remaining
`n - 10000 * (⌈n / 10000⌉ - 1)`. In particular 10,001 distinct keys give two
bulk writes, of 10,000 pairs and then 1. -/
theorem export_flush_boundary (env : ExportEnv) (rows : List Row) (henv : GoodEnv env)
    (hsorted : (rows.map (fun r => r.key)).Sorted (· ≤ ·)) (ht : RowsTimed rows)
    (hb : BytesBelowThreshold env rows) (n : Nat)
    (hn : (rows.map (fun r => r.key)).dedup.length = n) (hpos : 1 ≤ n) :
    ∃ log, oldExportStatus env (rows.map Except.ok) none = .ok log ∧
      log.bulkWrites.length = (n + 9999) / 10000 ∧
      log.bulkWrites.map List.length =
        List.replicate ((n + 9999) / 10000 - 1) 10000 ++
          [n - 10000 * ((n + 9999) / 10000 - 1)] ∧
      (n = 10001 → log.bulkWrites.map List.length = [10000, 1]) := by
  obtain ⟨st, toUpd, hinv, hpairs, hrun⟩ := oldExportStatus_sorted henv rows hsorted ht
  refine ⟨_, hrun, ?_⟩
  suffices hmain : (st.log.bulkWrites ++ [toUpd]).length = (n + 9999) / 10000 ∧
      (st.log.bulkWrites ++ [toUpd]).map List.length =
        List.replicate ((n + 9999) / 10000 - 1) 10000 ++
          [n - 10000 * ((n + 9999) / 10000 - 1)] by
    refine ⟨hmain.1, hmain.2, ?_⟩
    intro h10001
    have h2 := hmain.2
    rw [h10001] at h2
    rw [h2]
    decide
  have hfull := hinv.full hb
  have hlenUpd : toUpd.length = st.updates.length := by
    have := congrArg List.length (pairs_keys env _ _ hpairs)
    simpa using this
  -- the number of distinct keys is 10000 * (flushes so far) + pending
  have hcount : n = 10000 * st.log.bulkWrites.length + st.updates.length := by
    rw [← hn, ← (distinctKeys_perm_dedup _).length_eq, ← hinv.keys, List.length_append,
      List.length_map, List.length_map, length_written_of_full _ hfull]
  have hpend : 1 ≤ st.updates.length := by
    rcases hinv.last with ⟨he, _⟩ | ⟨init, hinit, _⟩
    · subst he
      simp at hn
      omega
    · have := congrArg List.length hinit
      simp at this
      omega
  have hbound := hinv.bound
  have hj : (n + 9999) / 10000 - 1 = st.log.bulkWrites.length := by omega
  refine ⟨by simp only [List.length_append, List.length_singleton]; omega, ?_⟩
  rw [hj]
  simp only [List.map_append, List.map_cons, List.map_nil, lengths_eq_replicate _ hfull, hlenUpd]
  congr 2
  omega

/-- Witness of C3 on three rows with two distinct keys: one bulk write of two
pairs. -/
theorem export_flush_boundary_witness :
    GoodEnv sampleEnv ∧ (sampleRows.map (fun r => r.key)).Sorted (· ≤ ·) ∧ RowsTimed sampleRows ∧
    BytesBelowThreshold sampleEnv sampleRows ∧
    (sampleRows.map (fun r => r.key)).dedup.length = 2 ∧ 1 ≤ 2 ∧
    ∃ log, oldExportStatus sampleEnv (sampleRows.map Except.ok) none = .ok log ∧
      log.bulkWrites.length = (2 + 9999) / 10000 ∧
      log.bulkWrites.map List.length =
        List.replicate ((2 + 9999) / 10000 - 1) 10000 ++
          [2 - 10000 * ((2 + 9999) / 10000 - 1)] ∧
      (2 = 10001 → log.bulkWrites.map List.length = [10000, 1]) :=
  ⟨sampleEnv_good, sampleRows_sorted, sampleRows_timed, sampleRows_bytes, by decide, by decide,
    export_flush_boundary sampleEnv sampleRows sampleEnv_good sampleRows_sorted sampleRows_timed
      sampleRows_bytes 2 (by decide) (by decide)⟩


/-! ## Flush policy -/

theorem encodePrior_log (env : ExportEnv) (st st1 : LoopState)
    (h : encodePrior env st = .ok st1) : st1.log = st.log := by
  unfold encodePrior at h
  split at h
  · split at h
    · simp at h
    · split at h
      · simp at h
      · simp at h; subst h; rfl
  · simp at h; subst h; rfl

theorem addDeal_log (st : LoopState) (r : Row) : stepLog (addDeal st r) = st.log := by
  unfold addDeal
  split
  · rfl
  · split
    · rfl
    · split <;> rfl

theorem addDeal_shape (st st2 : LoopState) (r : Row) (h : addDeal st r = .ok st2) :
    st2.updatesApproxBytes = st.updatesApproxBytes ∧
    st2.updates.map (fun u => u.key) = st.updates.map (fun u => u.key) := by
  unfold addDeal at h
  split at h
  · simp at h; subst h; exact ⟨rfl, rfl⟩
  · split at h
    · simp at h
    · split at h
      · simp at h
      · simp at h; subst h; exact ⟨rfl, appendDeal_keys _ _ _⟩

theorem cfUpload_uploads (env : ExportEnv) (log : ExportLog) (updates : List cfStatusUpdate) :
    (finalLog (cfUploadAndMarkUpdates env log updates)).uploads = log.uploads ++ [updates] := by
  unfold cfUploadAndMarkUpdates
  cases buildRequest env updates with
  | error e => rfl
  | ok toUpd =>
    simp only
    split
    · rfl
    · cases env.cfAPI with
      | some e => rfl
      | none =>
        simp only
        cases env.writeBulk log.bulkWrites.length toUpd with
        | error e => rfl
        | ok b =>
          cases b with
          | false => rfl
          | true =>
            simp only
            cases env.markExported log.bulkWrites.length (List.map (fun u => u.cidv1) updates) with
            | some e => rfl
            | none => rfl

/-- C4, as the code has it. When a row starts a new group (its key is not in
the pending map) and the finished group has been encoded, the loop hands the
pending batch to `cfUploadAndMarkUpdates` before adding the new group if and
only if the batch holds at least 10,000 keys or the accumulated encoded bytes
are strictly more than 85 MiB (`85 * 2^20 = 89,128,960`). Otherwise no upload
is made. After a successful flush the iteration ends with the byte accumulator
at 0 and the new group alone in the batch. -/
theorem flush_policy (env : ExportEnv) (st st1 : LoopState) (r : Row)
    (hnew : lookup st.updates r.key = none) (henc : encodePrior env st = .ok st1) :
    ((stepLog (processRow env st r)).uploads = st.log.uploads ++ [st1.updates] ↔
      (10000 ≤ st1.updates.length ∨ 85 * 2 ^ 20 < st1.updatesApproxBytes)) ∧
    (¬ (10000 ≤ st1.updates.length ∨ 85 * 2 ^ 20 < st1.updatesApproxBytes) →
      (stepLog (processRow env st r)).uploads = st.log.uploads) ∧
    (∀ st2, processRow env st r = .ok st2 →
      (10000 ≤ st1.updates.length ∨ 85 * 2 ^ 20 < st1.updatesApproxBytes) →
      st2.updatesApproxBytes = 0 ∧ st2.updates.map (fun u => u.key) = [r.key]) := by
  have hlog1 := encodePrior_log env st st1 henc
  have hthr : (85 <<< 20 : Nat) = 85 * 2 ^ 20 := by decide
  have hprocErr : ∀ e, flushAndAdd env st1 r = .error e → processRow env st r = .error e := by
    intro e h; simp only [processRow, newGroup, hnew, henc, h]
  have hprocOk : ∀ st2, flushAndAdd env st1 r = .ok st2 →
      processRow env st r = addDeal st2 r := by
    intro st2 h; simp only [processRow, newGroup, hnew, henc, h]
  have hyes : (10000 ≤ st1.updates.length ∨ 85 * 2 ^ 20 < st1.updatesApproxBytes) →
      (stepLog (processRow env st r)).uploads = st.log.uploads ++ [st1.updates] ∧
      (∀ st2, processRow env st r = .ok st2 →
        st2.updatesApproxBytes = 0 ∧ st2.updates.map (fun u => u.key) = [r.key]) := by
    intro hc
    have hc2 : st1.updates.length > 9999 ∨ st1.updatesApproxBytes > 85 <<< 20 := by
      rw [hthr]; omega
    have hup := cfUpload_uploads env st1.log st1.updates
    cases hcf : cfUploadAndMarkUpdates env st1.log st1.updates with
    | error e =>
      rw [hcf] at hup
      have hf : flushAndAdd env st1 r = .error e := by
        unfold flushAndAdd; rw [if_pos hc2, hcf]
      rw [hprocErr e hf]
      obtain ⟨log, err⟩ := e
      refine ⟨by rw [← hlog1]; exact hup, ?_⟩
      intro st2 h2; simp at h2
    | ok log =>
      rw [hcf] at hup
      have hf : flushAndAdd env st1 r = .ok
          { priorKey := r.key, updates := [receiver r], updatesApproxBytes := 0, log := log } := by
        unfold flushAndAdd; rw [if_pos hc2, hcf]
      rw [hprocOk _ hf]
      refine ⟨?_, ?_⟩
      · rw [addDeal_log, ← hlog1]; exact hup
      · intro st2 h2
        have := addDeal_shape _ _ _ h2
        exact ⟨this.1, this.2⟩
  have hno : ¬ (10000 ≤ st1.updates.length ∨ 85 * 2 ^ 20 < st1.updatesApproxBytes) →
      (stepLog (processRow env st r)).uploads = st.log.uploads := by
    intro hc
    have hc2 : ¬ (st1.updates.length > 9999 ∨ st1.updatesApproxBytes > 85 <<< 20) := by
      rw [hthr]; omega
    have hf : flushAndAdd env st1 r = .ok
        { st1 with priorKey := r.key, updates := st1.updates ++ [receiver r] } := by
      unfold flushAndAdd; rw [if_neg hc2]
    rw [hprocOk _ hf, addDeal_log, ← hlog1]
  refine ⟨⟨?_, fun hc => (hyes hc).1⟩, hno, fun st2 h2 hc => (hyes hc).2 st2 h2⟩
  intro hup
  by_contra hc
  have := hno hc
  rw [this] at hup
  have := congrArg List.length hup
  simp at this

/-- Witness of C4: the pending batch of `thresholdState` is not flushed. -/
theorem flush_policy_witness :
    lookup thresholdState.updates thresholdRow.key = none ∧
    encodePrior sampleEnv thresholdState = .ok thresholdEncoded ∧
    (stepLog (processRow sampleEnv thresholdState thresholdRow)).uploads
      = thresholdState.log.uploads :=
  ⟨by decide, rfl,
    (flush_policy sampleEnv thresholdState thresholdEncoded thresholdRow (by decide) rfl).2.1
      (by decide)⟩

/-- C4 as stated fails at exactly 85 MiB: with the accumulator at 89,128,960
bytes after the finished group is encoded (and one key pending), the claim
asks for a flush, and the loop makes no upload. -/
theorem flush_policy_counterexample :
    lookup thresholdState.updates thresholdRow.key = none ∧
    encodePrior sampleEnv thresholdState = .ok thresholdEncoded ∧
    thresholdEncoded.updatesApproxBytes ≥ 85 * 2 ^ 20 ∧
    (stepLog (processRow sampleEnv thresholdState thresholdRow)).uploads
      ≠ thresholdState.log.uploads ++ [thresholdEncoded.updates] ∧
    (stepLog (processRow sampleEnv thresholdState thresholdRow)).uploads = [] :=
  ⟨by decide, rfl, by decide, by decide, by decide⟩


/-! ## Export default -/

/-- C5, as the code has it. Take key-sorted rows (no external call failing) and
a key whose only row `r` has no associated deal: no deal status, provider, deal
id, start or end time. The run succeeds and writes a pair for that key. If the
queued counter of `r` is not zero, the value of every pair written for the key
encodes exactly one deal entry, whose status is "queued" and whose network,
provider, chain deal id, activation and expiration fields, with their
epoch-second forms, are unset. If the queued counter is zero the row is
skipped, and the value encodes the empty list. -/
theorem export_default (env : ExportEnv) (rows : List Row) (r : Row) (henv : GoodEnv env)
    (hsorted : (rows.map (fun r => r.key)).Sorted (· ≤ ·)) (ht : RowsTimed rows)
    (honly : rows.filter (fun x => x.key = r.key) = [r])
    (hnodeal : r.Status = none ∧ r.Provider = none ∧ r.ChainDealID = none ∧
      r.dStart = none ∧ r.dEnd = none) :
    ∃ log, oldExportStatus env (rows.map Except.ok) none = .ok log ∧
      (∃ p ∈ log.written, p.Key = r.key) ∧
      ∀ p ∈ log.written, p.Key = r.key →
        (r.Queued ≠ 0 → ∃ e, env.jsonEncode (some [e]) = .ok p.Value ∧
          e.Status = some "queued" ∧ e.Network = none ∧ e.Provider = none ∧
          e.ChainDealID = none ∧ e.DealActivation = none ∧ e.DealActivationUnix = none ∧
          e.DealExpiration = none ∧ e.DealExpirationUnix = none) ∧
        (r.Queued = 0 → env.jsonEncode (some []) = .ok p.Value) := by
  obtain ⟨log, hrun, hperm, hvals⟩ := sorted_run_written env rows henv hsorted ht
  have hr : r ∈ rows := by
    have : r ∈ rows.filter (fun x => x.key = r.key) := by rw [honly]; simp
    exact (List.mem_filter.1 this).1
  refine ⟨log, hrun, ?_, ?_⟩
  · have : r.key ∈ log.written.map (fun p => p.Key) := by
      rw [hperm.mem_iff, List.mem_dedup]
      exact List.mem_map.2 ⟨r, hr, rfl⟩
    obtain ⟨p, hp, hk⟩ := List.mem_map.1 this
    exact ⟨p, hp, hk⟩
  · intro p hp hk
    have hv := hvals p hp
    have hdeals : dealsOf rows p.Key = (rowDeal r).toList := by
      unfold dealsOf
      rw [hk, honly]
      simp [List.filterMap_cons]
      cases rowDeal r <;> rfl
    rw [hdeals] at hv
    obtain ⟨hst, hprov, hdeal, hstart, hend⟩ := hnodeal
    constructor
    · intro hq
      have hns : ¬ skipped r := fun h => hq h.1
      obtain ⟨lc, hlc⟩ : ∃ lc, r.LastChanged = some lc := by
        cases h : r.LastChanged with
        | none => exact absurd h (ht r hr hns)
        | some lc => exact ⟨lc, rfl⟩
      have hrd : rowDeal r = some (dealEntry r lc) := by simp [rowDeal, hns, hlc]
      rw [hrd] at hv
      refine ⟨dealEntry r lc, hv, ?_⟩
      simp [dealEntry, hst, hprov, hdeal]
    · intro hq
      have hs : skipped r := ⟨hq, hst⟩
      have hrd : rowDeal r = none := by simp [rowDeal, hs]
      rw [hrd] at hv
      exact hv

/-- Witness of C5 on the single row of key `k`, queued and without a deal. -/
theorem export_default_witness :
    GoodEnv sampleEnv ∧
    ([sampleRow "k" "c" 1 none].map (fun r => r.key)).Sorted (· ≤ ·) ∧
    RowsTimed [sampleRow "k" "c" 1 none] ∧
    [sampleRow "k" "c" 1 none].filter (fun x => x.key = (sampleRow "k" "c" 1 none).key)
      = [sampleRow "k" "c" 1 none] ∧
    ((sampleRow "k" "c" 1 none).Status = none ∧ (sampleRow "k" "c" 1 none).Provider = none ∧
      (sampleRow "k" "c" 1 none).ChainDealID = none ∧ (sampleRow "k" "c" 1 none).dStart = none ∧
      (sampleRow "k" "c" 1 none).dEnd = none) ∧
    ∃ log, oldExportStatus sampleEnv ([sampleRow "k" "c" 1 none].map Except.ok) none = .ok log ∧
      (∃ p ∈ log.written, p.Key = (sampleRow "k" "c" 1 none).key) ∧
      ∀ p ∈ log.written, p.Key = (sampleRow "k" "c" 1 none).key →
        ((sampleRow "k" "c" 1 none).Queued ≠ 0 →
          ∃ e, sampleEnv.jsonEncode (some [e]) = .ok p.Value ∧
          e.Status = some "queued" ∧ e.Network = none ∧ e.Provider = none ∧
          e.ChainDealID = none ∧ e.DealActivation = none ∧ e.DealActivationUnix = none ∧
          e.DealExpiration = none ∧ e.DealExpirationUnix = none) ∧
        ((sampleRow "k" "c" 1 none).Queued = 0 →
          sampleEnv.jsonEncode (some []) = .ok p.Value) :=
  ⟨sampleEnv_good, by simp, by unfold RowsTimed; decide, by decide, by decide,
    export_default sampleEnv [sampleRow "k" "c" 1 none] (sampleRow "k" "c" 1 none)
      sampleEnv_good (by simp) (by unfold RowsTimed; decide) (by decide) (by decide)⟩

/-- C5 as stated fails when the only row of a key has no deal and a queued
counter of zero: the row is skipped, the group handed to the upload has an
empty deal list, and the value written is `[]`, not a list of one entry. -/
theorem export_default_counterexample :
    (unqueuedRow.Status = none ∧ unqueuedRow.Provider = none ∧ unqueuedRow.ChainDealID = none ∧
      unqueuedRow.dStart = none ∧ unqueuedRow.dEnd = none) ∧
    oldExportStatus sampleEnv [.ok unqueuedRow] none = .ok
      { uploads := [[receiver unqueuedRow]]
        bulkWrites := [[{ Key := "k", Metadata := (receiver unqueuedRow).metadata,
                          Value := "[]\n" }]]
        marked := [["c"]]
        countUpdated := 1 } ∧
    (receiver unqueuedRow).value = some [] :=
  ⟨by decide, rfl, rfl⟩


/-! ## Unsorted input -/

/-- C11. There are rows whose keys are not in non-decreasing order, `A`, `B`,
`A`, each carrying a deal, on which the export run completes without any
error and groups wrongly. The record emitted for `B` holds the deal built from
the second `A` row behind the deal of `B`, and the record and the written value
of `A` hold the deal of the first `A` row only, although two rows carry
key `A`. -/
theorem unsorted_input_corrupts_grouping :
    ¬ (unsortedRows.map (fun r => r.key)).Sorted (· ≤ ·) ∧
    (∀ r ∈ unsortedRows, ¬ skipped r) ∧
    (∃ log, oldExportStatus sampleEnv (unsortedRows.map Except.ok) none = .ok log) ∧
    (finalLog (oldExportStatus sampleEnv (unsortedRows.map Except.ok) none)).uploads.map
        (List.map (fun u => (u.key, u.value))) =
      [[("A", some [dealEntry (sampleRow "A" "c1" 0 (some "active")) ⟨100, 0⟩]),
        ("B", some [dealEntry (sampleRow "B" "c2" 0 (some "published")) ⟨100, 0⟩,
                    dealEntry (sampleRow "A" "c3" 0 (some "terminated")) ⟨100, 0⟩])]] ∧
    (finalLog (oldExportStatus sampleEnv (unsortedRows.map Except.ok) none)).written.map
        (fun p => (p.Key, p.Value)) =
      [("A", "[\x7b\"status\":\"active\"\x7d]\n"),
       ("B", "[\x7b\"status\":\"published\"\x7d,\x7b\"status\":\"terminated\"\x7d]\n")] ∧
    dealsOf unsortedRows "A" =
      [dealEntry (sampleRow "A" "c1" 0 (some "active")) ⟨100, 0⟩,
       dealEntry (sampleRow "A" "c3" 0 (some "terminated")) ⟨100, 0⟩] ∧
    dealsOf unsortedRows "B" = [dealEntry (sampleRow "B" "c2" 0 (some "published")) ⟨100, 0⟩] := by
  refine ⟨?_, by decide, ⟨_, rfl⟩, by decide, by decide, by decide, by decide⟩
  simp only [unsortedRows, sampleRow, List.map_cons, List.map_nil, List.Sorted,
    List.pairwise_cons, String.le_iff_toList_le]
  decide


/-! ## Groups made of skipped rows -/

theorem dealsOf_all_skipped (rows : List Row) (k : String)
    (h : ∀ r ∈ rows, r.key = k → skipped r) : dealsOf rows k = [] := by
  unfold dealsOf
  rw [List.filterMap_eq_nil_iff]
  intro r hr
  obtain ⟨hmem, hk⟩ := List.mem_filter.1 hr
  have hs : skipped r := h r hmem (by simpa using hk)
  simp [rowDeal, hs]

theorem zip_of_related {α β : Type} {R : α → β → Prop} {l₁ : List α} {l₂ : List β}
    (h : List.Forall₂ R l₁ l₂) : ∀ a ∈ l₁, ∃ b, (a, b) ∈ l₁.zip l₂ ∧ R a b := by
  induction h with
  | nil => intro a ha; simp at ha
  | cons hab _ ih =>
    intro a ha
    rcases List.mem_cons.1 ha with h | h
    · subst h; exact ⟨_, by simp, hab⟩
    · obtain ⟨b, hb, hr⟩ := ih a h
      exact ⟨b, by simp [hb], hr⟩

/-- C12. For key-sorted rows (no external call failing), a key all of whose
rows are skipped is emitted all the same: the run succeeds, and some bulk write
holds a pair for that key whose value is the encoding of the empty deal list
(the empty slice, `[]` in JSON); the cid of the first row of the key is in the
list marked as exported after that bulk write. Every pair written for the key
has that value, and as metadata the queued, published, active and terminated
columns of the first row of the key, the three other counters being 0. -/
theorem skipped_group_emitted (env : ExportEnv) (rows : List Row) (k : String)
    (henv : GoodEnv env) (hsorted : (rows.map (fun r => r.key)).Sorted (· ≤ ·))
    (ht : RowsTimed rows) (hk : k ∈ rows.map (fun r => r.key))
    (hskip : ∀ r ∈ rows, r.key = k → skipped r) :
    ∃ log r, oldExportStatus env (rows.map Except.ok) none = .ok log ∧
      rows.find? (fun x => x.key == k) = some r ∧
      (∃ w m p, (w, m) ∈ log.bulkWrites.zip log.marked ∧ p ∈ w ∧ p.Key = k ∧ r.cidv1 ∈ m) ∧
      ∀ p ∈ log.written, p.Key = k →
        env.jsonEncode (some []) = .ok p.Value ∧
        p.Metadata =
          { Queued := r.Queued, Proposing := 0, Accepted := 0, Failed := 0
            Published := r.Published, Active := r.Active, Terminated := r.Terminated } := by
  obtain ⟨st, toUpd, hinv, hpairs, hrun⟩ := oldExportStatus_sorted henv rows hsorted ht
  have hdeals := dealsOf_all_skipped rows k hskip
  -- the calls of the whole run, final flush included, are aligned with their marks
  have hfinal : MarkedWith rows toUpd (st.updates.map (fun u => u.cidv1)) := by
    intro p hp
    obtain ⟨u, hu, hpk, hm, _⟩ := pairs_mem env _ _ hpairs p hp
    obtain ⟨r0, h0, h1, h2⟩ := hinv.first u hu
    exact ⟨r0, by rw [hpk]; exact h0, by rw [hm]; exact h2, List.mem_map.2 ⟨u, hu, h1⟩⟩
  have haligned : List.Forall₂ (MarkedWith rows) (st.log.bulkWrites ++ [toUpd])
      (st.log.marked ++ [st.updates.map (fun u => u.cidv1)]) :=
    List.rel_append hinv.aligned (List.Forall₂.cons hfinal List.Forall₂.nil)
  -- a pair is written for the key
  have hkeyW : k ∈ (st.log.bulkWrites ++ [toUpd]).flatten.map (fun p => p.Key) := by
    have hmem : k ∈ distinctKeys (rows.map (fun r => r.key)) := (mem_distinctKeys _ _).2 hk
    rw [← hinv.keys] at hmem
    simp only [ExportLog.written, List.flatten_append, List.map_append, List.flatten_cons,
      List.flatten_nil, List.append_nil, pairs_keys env _ _ hpairs]
    exact hmem
  obtain ⟨p, hp, hpk⟩ := List.mem_map.1 hkeyW
  obtain ⟨w, hw, hpw⟩ := List.mem_flatten.1 hp
  obtain ⟨m, hzip, hmark⟩ := zip_of_related haligned w hw
  obtain ⟨r, hfind, _, hcid⟩ := hmark p hpw
  rw [hpk] at hfind
  refine ⟨_, r, hrun, hfind, ⟨w, m, p, hzip, hpw, hpk, hcid⟩, ?_⟩
  intro q hq hqk
  change q ∈ (st.log.bulkWrites ++ [toUpd]).flatten at hq
  obtain ⟨w2, hw2, hqw⟩ := List.mem_flatten.1 hq
  obtain ⟨m2, _, hmark2⟩ := zip_of_related haligned w2 hw2
  obtain ⟨r2, hfind2, hmeta2, _⟩ := hmark2 q hqw
  rw [hqk, hfind] at hfind2
  have hr2 : r = r2 := Option.some.inj hfind2
  refine ⟨?_, by rw [hr2]; exact hmeta2⟩
  -- the value is the encoding of the deal list of the key, which is empty
  simp only [List.flatten_append, List.flatten_cons, List.flatten_nil, List.append_nil,
    List.mem_append] at hq
  rcases hq with hq | hq
  · have := hinv.flushed q hq
    rw [hqk, hdeals] at this
    exact this
  · obtain ⟨u, hu, hk2, _, hv⟩ := pairs_mem env _ _ hpairs q hq
    obtain ⟨hval, henc⟩ := hinv.pending u hu
    have hval2 : u.value = some [] := by rw [hval, ← hk2, hqk, hdeals]
    by_cases hve : u.valueEncoded = ""
    · rw [if_pos hve, hval2] at hv; exact hv
    · rw [if_neg hve] at hv
      rcases henc with h | h
      · exact absurd h hve
      · rw [hv, ← hval2]; exact h

/-- Witness of C12 on `skippedRows`, where both rows of key `b` are skipped:
one bulk write, in which `b` has the value `[]` and the counters 2, 3, 4 of
its first row, and the cid `c2` of that row is marked. -/
theorem skipped_group_emitted_witness :
    GoodEnv sampleEnv ∧ (skippedRows.map (fun r => r.key)).Sorted (· ≤ ·) ∧
    RowsTimed skippedRows ∧
    "b" ∈ skippedRows.map (fun r => r.key) ∧ (∀ r ∈ skippedRows, r.key = "b" → skipped r) ∧
    (finalLog (oldExportStatus sampleEnv (skippedRows.map Except.ok) none)).written.map
        (fun p => (p.Key, p.Metadata, p.Value)) =
      [("a", { Queued := 1, Proposing := 0, Accepted := 0, Failed := 0, Published := 0,
               Active := 0, Terminated := 0 }, "[\x7b\"status\":\"queued\"\x7d]\n"),
       ("b", { Queued := 0, Proposing := 0, Accepted := 0, Failed := 0, Published := 2,
               Active := 3, Terminated := 4 }, "[]\n")] ∧
    (finalLog (oldExportStatus sampleEnv (skippedRows.map Except.ok) none)).marked
      = [["c1", "c2"]] ∧
    ∃ log r, oldExportStatus sampleEnv (skippedRows.map Except.ok) none = .ok log ∧
      skippedRows.find? (fun x => x.key == "b") = some r ∧
      (∃ w m p, (w, m) ∈ log.bulkWrites.zip log.marked ∧ p ∈ w ∧ p.Key = "b" ∧ r.cidv1 ∈ m) ∧
      ∀ p ∈ log.written, p.Key = "b" →
        sampleEnv.jsonEncode (some []) = .ok p.Value ∧
        p.Metadata =
          { Queued := r.Queued, Proposing := 0, Accepted := 0, Failed := 0
            Published := r.Published, Active := r.Active, Terminated := r.Terminated } :=
  ⟨sampleEnv_good,
    by
      simp only [skippedRows, sampleRow, List.map_cons, List.map_nil, List.Sorted,
        List.pairwise_cons, String.le_iff_toList_le]
      decide,
    by unfold RowsTimed; decide, by decide, by decide, by decide, by decide,
    skipped_group_emitted sampleEnv skippedRows "b" sampleEnv_good
      (by
        simp only [skippedRows, sampleRow, List.map_cons, List.map_nil, List.Sorted,
          List.pairwise_cons, String.le_iff_toList_le]
        decide)
      (by unfold RowsTimed; decide) (by decide) (by decide)⟩

/-! ## The pin job -/

/-- C6, as the code has it. When the pin request fails, the job opens no
transaction, leaves the store untouched and leaves the pinned, refs and size
counters unchanged. If the context is neither cancelled nor expired when the
job returns, it returns no error and has incremented the failed counter by one;
if it is, the context error is returned to the caller. -/
theorem pin_failure_non_propagating (env : PinEnv) (rootCid : Cid) (total : stats)
    (store : Store) (e : GoError) (hpin : env.pinAdd = some e) :
    (pinAndAnalyze env rootCid total store).store = store ∧
    (pinAndAnalyze env rootCid total store).txOpened = false ∧
    (pinAndAnalyze env rootCid total store).commitCalled = false ∧
    (pinAndAnalyze env rootCid total store).panicked = false ∧
    (pinAndAnalyze env rootCid total store).total.pinned = total.pinned ∧
    (pinAndAnalyze env rootCid total store).total.refs = total.refs ∧
    (pinAndAnalyze env rootCid total store).total.size = total.size ∧
    (env.ctxErr = none →
      (pinAndAnalyze env rootCid total store).err = none ∧
      (pinAndAnalyze env rootCid total store).total.failed = addUint64 total.failed 1) ∧
    (∀ c, env.ctxErr = some c →
      (pinAndAnalyze env rootCid total store).err = some (.context c)) := by
  unfold pinAndAnalyze pinBody
  rw [hpin]
  cases hc : env.ctxErr with
  | none => simp [pinDeferred, hc]
  | some c => simp [pinDeferred, hc, GoError.isUrlTimeout]

/-- Witness of C6: the pin fails, the context is live. -/
theorem pin_failure_non_propagating_witness :
    ({ samplePinEnv with pinAdd := some (.other "pin failed") } : PinEnv).pinAdd
      = some (.other "pin failed") ∧
    (pinAndAnalyze { samplePinEnv with pinAdd := some (.other "pin failed") }
      ⟨"root"⟩ zeroStats sampleStore).err = none ∧
    (pinAndAnalyze { samplePinEnv with pinAdd := some (.other "pin failed") }
      ⟨"root"⟩ zeroStats sampleStore).total.failed = addUint64 zeroStats.failed 1 :=
  ⟨rfl,
    ((pin_failure_non_propagating { samplePinEnv with pinAdd := some (.other "pin failed") }
      ⟨"root"⟩ zeroStats sampleStore (.other "pin failed") rfl).2.2.2.2.2.2.2.1 rfl)⟩

/-- C6 as stated fails under cancellation: the pin fails and the context is
cancelled when the job returns; the job returns the context error to its
caller, and the failed counter has gone from 0 to 2. -/
theorem pin_failure_non_propagating_counterexample :
    ({ samplePinEnv with pinAdd := some (.other "pin failed"), ctxErr := some .canceled }
      : PinEnv).pinAdd = some (.other "pin failed") ∧
    (pinAndAnalyze
      { samplePinEnv with pinAdd := some (.other "pin failed"), ctxErr := some .canceled }
      ⟨"root"⟩ zeroStats sampleStore).err = some (.context .canceled) ∧
    (pinAndAnalyze
      { samplePinEnv with pinAdd := some (.other "pin failed"), ctxErr := some .canceled }
      ⟨"root"⟩ zeroStats sampleStore).total.failed = 2 := by
  decide


/-- The deferred function on a body that returned an error. -/
theorem pinDeferred_error (env : PinEnv) (b : BodyResult) (e : GoError) (h : b.err = some e) :
    pinDeferred env b =
      { err := if e.isUrlTimeout then none else some e
        panicked := b.panicked
        total := { b.total with failed := addUint64 b.total.failed 1 }
        store := b.store
        txOpened := b.tx.isSome
        rolledBack := b.tx.isSome
        commitCalled := false
        committed := false } := by
  unfold pinDeferred
  simp [h]

/-- C7 fails on the code for timeouts that do not reach the deferred function
as a `*url.Error`. A timeout of the stat request is downgraded as the claim
says: no error is returned and the failed counter goes to 1. A timeout of a
read of the reference stream, after one record, is returned to the caller as
the error of the job. A timeout of the `refs` request itself leaves a nil
response, and the job panics instead of returning. In all three the store is
unchanged. -/
theorem post_pin_timeout_not_downgraded :
    (statTimeout.isTimeout = true ∧
      (pinAndAnalyze statTimeoutEnv ⟨"root"⟩ zeroStats sampleStore).err = none ∧
      (pinAndAnalyze statTimeoutEnv ⟨"root"⟩ zeroStats sampleStore).panicked = false ∧
      (pinAndAnalyze statTimeoutEnv ⟨"root"⟩ zeroStats sampleStore).total.failed = 1 ∧
      (pinAndAnalyze statTimeoutEnv ⟨"root"⟩ zeroStats sampleStore).store = sampleStore) ∧
    (bodyReadTimeout.isTimeout = true ∧
      (pinAndAnalyze streamTimeoutEnv ⟨"root"⟩ zeroStats sampleStore).err
        = some bodyReadTimeout ∧
      (pinAndAnalyze streamTimeoutEnv ⟨"root"⟩ zeroStats sampleStore).panicked = false ∧
      (pinAndAnalyze streamTimeoutEnv ⟨"root"⟩ zeroStats sampleStore).total.failed = 1 ∧
      (pinAndAnalyze streamTimeoutEnv ⟨"root"⟩ zeroStats sampleStore).store = sampleStore) ∧
    (refsTimeout.isTimeout = true ∧
      (pinAndAnalyze sendTimeoutEnv ⟨"root"⟩ zeroStats sampleStore).panicked = true ∧
      (pinAndAnalyze sendTimeoutEnv ⟨"root"⟩ zeroStats sampleStore).store = sampleStore) := by
  decide

theorem setSize_sized (s : Store) (size : Nat) (cid : String) :
    ∀ row ∈ (s.setSize size cid).dags, row.1 = cid → row.2 = some size := by
  intro row hrow hcid
  unfold Store.setSize at hrow
  obtain ⟨x, _, hx⟩ := List.mem_map.1 hrow
  by_cases hk : x.1 = cid
  · rw [if_pos hk] at hx; rw [← hx]
  · rw [if_neg hk] at hx; rw [← hx] at hcid; exact absurd hcid hk

/-- C8. For a job whose pin succeeded and whose stat reports more than one
block, whatever fails or is cancelled afterwards, the store ends in one of two
states: unchanged, or with all collected reference edges appended and the size
of the DAG set, both made visible by the one successful commit. -/
theorem size_refs_atomic (env : PinEnv) (rootCid : Cid) (total : stats) (store : Store)
    (ds : dagStat) (hpin : env.pinAdd = none) (hstat : env.statResult = .ok ds)
    (hnb : ds.NumBlocks > 1) :
    ((pinAndAnalyze env rootCid total store).store = store ∧
      (pinAndAnalyze env rootCid total store).committed = false) ∨
    (∃ refs, RefsCollected env rootCid refs ∧
      (pinAndAnalyze env rootCid total store).committed = true ∧
      (pinAndAnalyze env rootCid total store).store =
        (store.copyRefs refs).setSize ds.Size (env.cidString (env.cidv1 rootCid)) ∧
      (pinAndAnalyze env rootCid total store).store.refs = store.refs ++ refs ∧
      ∀ row ∈ (pinAndAnalyze env rootCid total store).store.dags,
        row.1 = env.cidString (env.cidv1 rootCid) → row.2 = some ds.Size) := by
  unfold pinAndAnalyze pinBody
  simp only [hpin, hstat, hnb, if_true]
  cases hsend : env.refsSend with
  | some f =>
    left
    cases f with
    | transport e => simp [pinDeferred]
    | errorStatus => cases hctx : env.ctxErr <;> simp [pinDeferred, hctx]
  | none =>
    simp only
    cases hcol : collectRefs env rootCid env.refsStream env.refsEnd [] with
    | error e => left; simp [pinDeferred]
    | ok refs =>
      simp only
      cases hbegin : env.begin with
      | some e => left; simp [pinDeferred]
      | none =>
        simp only
        cases hcopy : env.copyFrom with
        | some e => left; simp [pinDeferred]
        | none =>
          simp only
          unfold updateSize
          cases hexec : env.exec with
          | some e => left; simp [pinDeferred]
          | none =>
            simp only
            cases hctx : env.ctxErr with
            | some c => left; simp [pinDeferred, hctx]
            | none =>
              -- the commit is attempted: either its writes reach the store, or none does
              have hwritten : ∀ hok : (match env.commit with
                    | some f => f.applied = true
                    | none => True),
                  (pinDeferred env
                    { err := none, panicked := false
                      tx := some ((store.copyRefs refs).setSize ds.Size
                        (env.cidString (env.cidv1 rootCid)))
                      total :=
                        { pinned := addUint64 total.pinned 1, failed := total.failed
                          refs := addUint64 total.refs refs.length
                          size := addUint64 total.size ds.Size }
                      store := store }).committed = true ∧
                  (pinDeferred env
                    { err := none, panicked := false
                      tx := some ((store.copyRefs refs).setSize ds.Size
                        (env.cidString (env.cidv1 rootCid)))
                      total :=
                        { pinned := addUint64 total.pinned 1, failed := total.failed
                          refs := addUint64 total.refs refs.length
                          size := addUint64 total.size ds.Size }
                      store := store }).store =
                    (store.copyRefs refs).setSize ds.Size (env.cidString (env.cidv1 rootCid)) := by
                intro hok
                cases hcommit : env.commit with
                | none => simp [pinDeferred, hctx, hcommit]
                | some f =>
                  rw [hcommit] at hok
                  simp only at hok
                  simp [pinDeferred, hctx, hcommit, hok]
              cases hcommit : env.commit with
              | some f =>
                cases happ : f.applied with
                | false => left; simp [pinDeferred, hctx, hcommit, happ]
                | true =>
                  right
                  obtain ⟨h1, hres⟩ := hwritten (by rw [hcommit]; exact happ)
                  refine ⟨refs, ⟨hsend, hcol⟩, h1, hres, ?_, ?_⟩
                  · rw [hres]; rfl
                  · rw [hres]; exact setSize_sized _ _ _
              | none =>
                right
                obtain ⟨h1, hres⟩ := hwritten (by rw [hcommit]; trivial)
                refine ⟨refs, ⟨hsend, hcol⟩, h1, hres, ?_, ?_⟩
                · rw [hres]; rfl
                · rw [hres]; exact setSize_sized _ _ _

/-- Witness of C8 on the job in which everything succeeds. -/
theorem size_refs_atomic_witness :
    samplePinEnv.pinAdd = none ∧
    samplePinEnv.statResult = .ok { Size := 1000, NumBlocks := 3 } ∧
    ({ Size := 1000, NumBlocks := 3 } : dagStat).NumBlocks > 1 ∧
    (((pinAndAnalyze samplePinEnv ⟨"root"⟩ zeroStats sampleStore).store = sampleStore ∧
      (pinAndAnalyze samplePinEnv ⟨"root"⟩ zeroStats sampleStore).committed = false) ∨
    (∃ refs, RefsCollected samplePinEnv ⟨"root"⟩ refs ∧
      (pinAndAnalyze samplePinEnv ⟨"root"⟩ zeroStats sampleStore).committed = true ∧
      (pinAndAnalyze samplePinEnv ⟨"root"⟩ zeroStats sampleStore).store =
        (sampleStore.copyRefs refs).setSize 1000
          (samplePinEnv.cidString (samplePinEnv.cidv1 ⟨"root"⟩)) ∧
      (pinAndAnalyze samplePinEnv ⟨"root"⟩ zeroStats sampleStore).store.refs
        = sampleStore.refs ++ refs ∧
      ∀ row ∈ (pinAndAnalyze samplePinEnv ⟨"root"⟩ zeroStats sampleStore).store.dags,
        row.1 = samplePinEnv.cidString (samplePinEnv.cidv1 ⟨"root"⟩) → row.2 = some 1000)) :=
  ⟨rfl, rfl, by decide,
    size_refs_atomic samplePinEnv ⟨"root"⟩ zeroStats sampleStore { Size := 1000, NumBlocks := 3 }
      rfl rfl (by decide)⟩

theorem collectRefs_ok (env : PinEnv) (rootCid : Cid) :
    ∀ (stream : List refEntry) (cids : List Cid) (acc : List (String × String)),
      List.Forall₂ (fun x c => x.Err = "" ∧ env.parse x.Ref = .ok c) stream cids →
      collectRefs env rootCid stream none acc = .ok (acc ++ cids.map (refEdge env rootCid)) := by
  intro stream cids acc h
  induction h generalizing acc with
  | nil => simp [collectRefs]
  | cons hx _ ih =>
    unfold collectRefs
    simp only [hx.1, ne_eq, not_true_eq_false, if_false, hx.2]
    rw [ih]
    simp [refEdge]

/-- C9. When the pin, the stat, the reference stream, every store operation
and the commit succeed and the context is live, the job returns no error and
every row of the DAG in the store has the size the stat reported. With more
than one block, the store gains exactly one (CIDv1 of root, CIDv1 of reference)
edge per streamed record, in stream order, committed in the one transaction
that also sets the size. With zero or one block, no edge is written and the
size is set directly, without a transaction. -/
theorem pin_job_postcondition (env : PinEnv) (rootCid : Cid) (total : stats) (store : Store)
    (ds : dagStat) (cids : List Cid) (hpin : env.pinAdd = none)
    (hstat : env.statResult = .ok ds) (hsend : env.refsSend = none)
    (hrecs : List.Forall₂ (fun x c => x.Err = "" ∧ env.parse x.Ref = .ok c) env.refsStream cids)
    (hend : env.refsEnd = none) (hbegin : env.begin = none) (hcopy : env.copyFrom = none)
    (hexec : env.exec = none) (hcommit : env.commit = none) (hctx : env.ctxErr = none) :
    (pinAndAnalyze env rootCid total store).err = none ∧
    (pinAndAnalyze env rootCid total store).panicked = false ∧
    (∀ row ∈ (pinAndAnalyze env rootCid total store).store.dags,
      row.1 = env.cidString (env.cidv1 rootCid) → row.2 = some ds.Size) ∧
    (ds.NumBlocks > 1 →
      (pinAndAnalyze env rootCid total store).store =
        (store.copyRefs (cids.map (refEdge env rootCid))).setSize ds.Size
          (env.cidString (env.cidv1 rootCid)) ∧
      (pinAndAnalyze env rootCid total store).store.refs
        = store.refs ++ cids.map (refEdge env rootCid) ∧
      (pinAndAnalyze env rootCid total store).txOpened = true ∧
      (pinAndAnalyze env rootCid total store).committed = true ∧
      (pinAndAnalyze env rootCid total store).rolledBack = false) ∧
    (ds.NumBlocks ≤ 1 →
      (pinAndAnalyze env rootCid total store).store =
        store.setSize ds.Size (env.cidString (env.cidv1 rootCid)) ∧
      (pinAndAnalyze env rootCid total store).store.refs = store.refs ∧
      (pinAndAnalyze env rootCid total store).txOpened = false ∧
      (pinAndAnalyze env rootCid total store).commitCalled = false) ∧
    (pinAndAnalyze env rootCid total store).total.pinned = addUint64 total.pinned 1 ∧
    (pinAndAnalyze env rootCid total store).total.size = addUint64 total.size ds.Size ∧
    (pinAndAnalyze env rootCid total store).total.failed = total.failed := by
  have hcol := collectRefs_ok env rootCid env.refsStream cids [] hrecs
  rw [List.nil_append, ← hend] at hcol
  by_cases hnb : ds.NumBlocks > 1
  · have hres : pinAndAnalyze env rootCid total store =
        { err := none, panicked := false
          total := { pinned := addUint64 total.pinned 1, failed := total.failed
                     refs := addUint64 total.refs (cids.map (refEdge env rootCid)).length
                     size := addUint64 total.size ds.Size }
          store := (store.copyRefs (cids.map (refEdge env rootCid))).setSize ds.Size
            (env.cidString (env.cidv1 rootCid))
          txOpened := true, rolledBack := false, commitCalled := true, committed := true } := by
      unfold pinAndAnalyze pinBody
      simp only [hpin, hstat, hnb, if_true, hsend, hcol, hbegin, hcopy]
      unfold updateSize
      simp only [hexec]
      unfold pinDeferred
      simp only [hctx, hcommit, Option.map_none']
    rw [hres]
    refine ⟨rfl, rfl, setSize_sized _ _ _, fun _ => ⟨rfl, rfl, rfl, rfl, rfl⟩, ?_, rfl, rfl, rfl⟩
    intro hle; omega
  · have hres : pinAndAnalyze env rootCid total store =
        { err := none, panicked := false
          total := { pinned := addUint64 total.pinned 1, failed := total.failed
                     refs := total.refs
                     size := addUint64 total.size ds.Size }
          store := store.setSize ds.Size (env.cidString (env.cidv1 rootCid))
          txOpened := false, rolledBack := false, commitCalled := false, committed := false } := by
      unfold pinAndAnalyze pinBody
      simp only [hpin, hstat, hnb, if_false]
      unfold updateSize
      simp only [hexec]
      unfold pinDeferred
      simp only [hctx, Option.map_none']
    rw [hres]
    exact ⟨rfl, rfl, setSize_sized _ _ _, fun h => absurd h hnb, fun _ => ⟨rfl, rfl, rfl, rfl⟩,
      rfl, rfl, rfl⟩

/-- Witness of C9 on the job in which everything succeeds: two streamed
references, two edges. -/
theorem pin_job_postcondition_witness :
    samplePinEnv.pinAdd = none ∧
    List.Forall₂ (fun x c => x.Err = "" ∧ samplePinEnv.parse x.Ref = .ok c)
      samplePinEnv.refsStream [⟨"b1"⟩, ⟨"b2"⟩] ∧
    (pinAndAnalyze samplePinEnv ⟨"root"⟩ zeroStats sampleStore).err = none ∧
    (pinAndAnalyze samplePinEnv ⟨"root"⟩ zeroStats sampleStore).store
      = { dags := [("root", some 1000)], refs := [("root", "b1"), ("root", "b2")] } :=
  ⟨rfl, List.Forall₂.cons ⟨rfl, rfl⟩ (List.Forall₂.cons ⟨rfl, rfl⟩ List.Forall₂.nil),
    (pin_job_postcondition samplePinEnv ⟨"root"⟩ zeroStats sampleStore
      { Size := 1000, NumBlocks := 3 } [⟨"b1"⟩, ⟨"b2"⟩] rfl rfl rfl
      (List.Forall₂.cons ⟨rfl, rfl⟩ (List.Forall₂.cons ⟨rfl, rfl⟩ List.Forall₂.nil))
      rfl rfl rfl rfl rfl rfl).1,
    by decide⟩


/-! ## The feeder and the workers -/

/-- C10 fails on the code, in two interleavings. With two workers and three
DAGs of which the first two fail, both errors are reported (`e1` then `e2`),
the feeder takes `e1` out of `errCh` and sends it back behind `e2`, and the run
returns `e2`, the second error reported. With one worker, the main goroutine
closes and reads `errCh` while the feeder holds the only error: the run
returns success although `e1` was reported, and the feeder then panics on its
send to the closed channel. -/
theorem first_error_wins_fails :
    (∃ s, poolRun 2 twoFailures false (PoolState.init [⟨"c1"⟩, ⟨"c2"⟩, ⟨"c3"⟩] 2)
        reorderSchedule = some s ∧
      s.reported = [.other "e1", .other "e2"] ∧ s.main = .returned (some (.other "e2"))) ∧
    (∃ s, poolRun 1 twoFailures false (PoolState.init [⟨"c1"⟩, ⟨"c2"⟩] 1) lossSchedule = some s ∧
      s.reported = [.other "e1"] ∧ s.main = .returned none ∧ s.feeder = .panicked) := by
  refine ⟨⟨_, rfl, ?_, ?_⟩, ⟨_, rfl, ?_, ?_, ?_⟩⟩ <;> decide

end DagCargo
